import Mathlib

/-!
# Verification of the thunda packet-level data plane

A shallow embedding of the address types (IPv4, IPv6, MAC), the packet
views (IPv4Packet, IPv6Packet, ArpPacket) and the IPv6 packet builder of
the thunda repository, together with models of the Rust standard-library
routines the sources call (integer parsing, str splitting and the
std::net::Ipv6Addr text parser).

Conventions:
* machine integers are Nat, with wrap-around written explicitly where the
  Rust operation truncates;
* Rust strings are List Char; Rust str::len (a UTF-8 byte count) is
  utf8Length;
* buffers are List Nat (one Nat per octet);
* fallible Rust code returns Except, and an operation whose Rust original
  can panic returns Option (none = panic) or Option Except when it can
  both panic and return an error.
-/

namespace Thunda

instance {ε α : Type} [DecidableEq ε] [DecidableEq α] :
    DecidableEq (Except ε α) := fun x y =>
  match x, y with
  | .ok a, .ok b =>
    if h : a = b then isTrue (by rw [h])
    else isFalse fun he => h (by injection he)
  | .error a, .error b =>
    if h : a = b then isTrue (by rw [h])
    else isFalse fun he => h (by injection he)
  | .ok _, .error _ => isFalse fun he => Except.noConfusion he
  | .error _, .ok _ => isFalse fun he => Except.noConfusion he

/-! ## Characters and digits -/

/-- The character Rust's formatting machinery prints for one digit
(0-9 then lowercase a-z), as used by the decimal and the lowercase-hex
formatters. -/
def digitChar (d : Nat) : Char :=
  if d < 10 then Char.ofNat (48 + d) else Char.ofNat (97 + (d - 10))

/-- Model of Rust char::to_digit: decimal digits, then letters of either
case, accepted when their value is below the radix. -/
def toDigit (radix : Nat) (c : Char) : Option Nat :=
  let v : Option Nat :=
    if 48 ≤ c.toNat ∧ c.toNat ≤ 57 then some (c.toNat - 48)
    else if 97 ≤ c.toNat ∧ c.toNat ≤ 122 then some (c.toNat - 97 + 10)
    else if 65 ≤ c.toNat ∧ c.toNat ≤ 90 then some (c.toNat - 65 + 10)
    else none
  v.bind fun d => if d < radix then some d else none

/-- Digit string of n in base b (b ≥ 2), most significant digit first:
what Rust prints for integer Display (b = 10) and LowerHex without
padding (b = 16). -/
def toBase (b n : Nat) : List Char :=
  if h : n < b ∨ b ≤ 1 then [digitChar n]
  else toBase b (n / b) ++ [digitChar (n % b)]
  termination_by n
  decreasing_by
    push_neg at h
    exact Nat.div_lt_self (by omega) (by omega)

/-- Rust UTF-8 byte length of a string, str::len. -/
def utf8Length (s : List Char) : Nat :=
  (s.map Char.utf8Size).sum

/-! ## Model of Rust core::num integer parsing

u64::from_str_radix / the FromStr instances of the unsigned integers:
an optional leading plus sign, then a nonempty run of digits of the
radix, every intermediate value checked against the type's capacity. -/

/-- Digit-accumulation loop of from_str_radix over a whole string: every
character must be a digit and the value must stay within cap. -/
def radixAccum (radix cap : Nat) : List Char → Nat → Option Nat
  | [], acc => some acc
  | c :: cs, acc =>
    match toDigit radix c with
    | none => none
    | some d =>
      if acc * radix + d ≤ cap then radixAccum radix cap cs (acc * radix + d)
      else none

/-- Model of u64::from_str_radix(s, 16) for an unsigned 64-bit result:
optional '+', then at least one hex digit, value below 2^64. -/
def fromStrRadix16U64 (s : List Char) : Option Nat :=
  let digits := match s with
    | '+' :: rest => rest
    | _ => s
  if digits.isEmpty then none
  else radixAccum 16 (2 ^ 64 - 1) digits 0

/-- Model of u8::from_str (str::parse::&lt;u8&gt;): optional '+', then at
least one decimal digit, value below 256. -/
def u8FromStr (s : List Char) : Option Nat :=
  let digits := match s with
    | '+' :: rest => rest
    | _ => s
  if digits.isEmpty then none
  else radixAccum 10 255 digits 0

/-! ## Model of str::split for a single-character pattern -/

/-- Rust s.split(sep).collect::&lt;Vec&lt;_&gt;&gt;(): the chunks between
occurrences of sep; always nonempty. -/
def splitOnChar (sep : Char) : List Char → List (List Char)
  | [] => [[]]
  | c :: cs =>
    match splitOnChar sep cs with
    | r :: rs => if c = sep then [] :: r :: rs else (c :: r) :: rs
    | [] => [[c]]

/-! ## src/address/mac.rs -/

inductive MacAddressParseError where
  | InvalidLength
  | InvalidFormat
  | InvalidCharacter
  deriving DecidableEq, Repr

/-- MacAddress(pub u64). -/
structure MacAddress where
  val : Nat
  deriving DecidableEq, Repr

namespace mac

/-- mac::parse: remove every ':', '-' and '.'; exactly 12 bytes must
remain; read them as one hexadecimal u64. -/
def parse (s : List Char) : Except MacAddressParseError MacAddress :=
  let normalized := s.filter fun c => ¬(c = ':' ∨ c = '-' ∨ c = '.')
  if utf8Length normalized ≠ 12 then .error .InvalidLength
  else
    match fromStrRadix16U64 normalized with
    | some v => .ok ⟨v⟩
    | none => .error .InvalidCharacter

/-- Rust format "{:02x}": lowercase hex padded to two digits. -/
def hex02 (n : Nat) : List Char :=
  if n < 16 then '0' :: toBase 16 n else toBase 16 n

/-- mac::to_string: six colon-separated 02x groups of the shift-masked
octets. -/
def to_string (m : MacAddress) : List Char :=
  hex02 ((m.val >>> 40) &&& 0xFF) ++ ':' :: hex02 ((m.val >>> 32) &&& 0xFF)
    ++ ':' :: hex02 ((m.val >>> 24) &&& 0xFF) ++ ':' :: hex02 ((m.val >>> 16) &&& 0xFF)
    ++ ':' :: hex02 ((m.val >>> 8) &&& 0xFF) ++ ':' :: hex02 (m.val &&& 0xFF)

end mac

/-! ## src/address/ipv4.rs -/

inductive IPv4AddressError where
  | InvalidLength
  | InvalidFormat
  | InvalidCharacter
  | InvalidSegment
  deriving DecidableEq, Repr

/-- IPv4(pub [u8; 4]), kept as its four octets. -/
structure IPv4 where
  o0 : Nat
  o1 : Nat
  o2 : Nat
  o3 : Nat
  deriving DecidableEq, Repr

namespace ipv4

/-- IPv4::to_string: format "{}.{}.{}.{}" of the octets. -/
def to_string (a : IPv4) : List Char :=
  toBase 10 a.o0 ++ '.' :: toBase 10 a.o1 ++ '.' :: toBase 10 a.o2
    ++ '.' :: toBase 10 a.o3

/-- ipv4::from_string: split on '.', require four parts, parse each as
u8 (failure is InvalidCharacter). -/
def from_string (s : List Char) : Except IPv4AddressError IPv4 :=
  let parts := splitOnChar '.' s
  if parts.length ≠ 4 then .error .InvalidLength
  else
    match u8FromStr (parts.getD 0 []), u8FromStr (parts.getD 1 []),
        u8FromStr (parts.getD 2 []), u8FromStr (parts.getD 3 []) with
    | some a, some b, some c, some d => .ok ⟨a, b, c, d⟩
    | _, _, _, _ => .error .InvalidCharacter

/-- ipv4::from_bytes: exactly four octets. -/
def from_bytes (data : List Nat) : Except IPv4AddressError IPv4 :=
  if data.length ≠ 4 then .error .InvalidLength
  else .ok ⟨data.getD 0 0, data.getD 1 0, data.getD 2 0, data.getD 3 0⟩

end ipv4

/-! ## src/address/ipv6.rs -/

inductive Ipv6AddressError where
  | InvalidLength
  | InvalidFormat
  | InvalidCharacter
  | UnsupportedOperation
  deriving DecidableEq, Repr

/-- IPv6([u8; 16]); the sixteen octets as a list (the Rust array type
fixes the length at 16, recorded as a hypothesis where it matters). -/
structure IPv6 where
  bytes : List Nat
  deriving DecidableEq, Repr

namespace ipv6

/-- The twelve octets that open every IPv4-mapped address
(address::ipv6::IPV4_MAPPED_ prefix constant). -/
def ipv4MappedOctets : List Nat :=
  [0, 0, 0, 0, 0, 0, 0, 0, 0, 0, 0xff, 0xff]

/-- ipv6::is_ipv4_mapped: the first twelve octets equal the fixed
mapped-address opening. -/
def is_ipv4_mapped (a : IPv6) : Bool :=
  a.bytes.take 12 == ipv4MappedOctets

/-- ipv6::to_segments: successive big-endian 16-bit words of the octets
(the Rust chunks(2) loop over the fixed-size 16-octet array). -/
def to_segments : List Nat → List Nat
  | b1 :: b2 :: rest => ((b1 <<< 8) ||| b2) :: to_segments rest
  | _ => []

/-- ipv6::from_segments applied to eight words: each word split into its
two big-endian octets. -/
def segments_to_bytes : List Nat → List Nat
  | [] => []
  | g :: gs => ((g >>> 8) &&& 0xFF) :: (g &&& 0xFF) :: segments_to_bytes gs

/-- The four formatting states of ipv6::to_string. -/
inductive ScanState where
  | Head
  | HeadBody
  | Tail
  | TailBody
  deriving DecidableEq, Repr

/-- One iteration of the formatting loop of ipv6::to_string: the match
on (segment, state). -/
def scanStep : ScanState × List Char → Nat → ScanState × List Char
  | (st, r), seg =>
    match seg, st with
    | 0, .Head => (.Tail, r ++ [':', ':'])
    | 0, .HeadBody => (.Tail, r ++ [':', ':'])
    | 0, .Tail => (.Tail, r)
    | s, .Head => (.HeadBody, r ++ toBase 16 s)
    | s, .Tail => (.TailBody, r ++ toBase 16 s)
    | s, _ => (st, r ++ ':' :: toBase 16 s)

/-- ipv6::to_string: the IPv4-mapped special case, else the four-state
scan over the eight segments. -/
def to_string (a : IPv6) : List Char :=
  if is_ipv4_mapped a then
    [':', ':', 'f', 'f', 'f', 'f', ':']
      ++ toBase 10 (a.bytes.getD 12 0) ++ '.' :: toBase 10 (a.bytes.getD 13 0)
      ++ '.' :: toBase 10 (a.bytes.getD 14 0) ++ '.' :: toBase 10 (a.bytes.getD 15 0)
  else
    ((to_segments a.bytes).foldl scanStep (.Head, [])).2

/-! ### Model of Rust core::net::parser for Ipv6Addr

ipv6::from_string runs addr_str.parse::&lt;std::net::Ipv6Addr&gt;(); the
functions below model that standard-library parser. Parsing functions
take the input and return the value with the unconsumed remainder;
returning none consumes nothing (the std parser's read_atomically). -/

/-- Parser::read_number: greedy digit loop with capacity cap, at most
maxDigits digits accepted, count and accumulator threaded. Returns the
accumulator, the digit count and the remainder. -/
def readNumAux (radix maxDigits cap : Nat) :
    List Char → Nat → Nat → Option (Nat × Nat × List Char)
  | [], acc, cnt => some (acc, cnt, [])
  | c :: cs, acc, cnt =>
    match toDigit radix c with
    | none => some (acc, cnt, c :: cs)
    | some d =>
      if acc * radix + d ≤ cap ∧ cnt + 1 ≤ maxDigits then
        readNumAux radix maxDigits cap cs (acc * radix + d) (cnt + 1)
      else none

/-- Parser::read_number: at least one digit; a redundant leading zero is
refused when allowZero is false. -/
def readNumber (radix maxDigits cap : Nat) (allowZero : Bool)
    (s : List Char) : Option (Nat × List Char) :=
  let leadZero := s.head? = some '0'
  match readNumAux radix maxDigits cap s 0 0 with
  | none => none
  | some (acc, cnt, rest) =>
    if cnt = 0 then none
    else if allowZero = false ∧ leadZero ∧ 1 < cnt then none
    else some (acc, rest)

/-- Parser::read_ipv4_addr: four decimal octets (at most three digits,
no leading zero, value ≤ 255) separated by '.'. -/
def readIpv4 (s : List Char) : Option ((Nat × Nat × Nat × Nat) × List Char) :=
  match readNumber 10 3 255 false s with
  | none => none
  | some (a, s1) =>
    match s1 with
    | '.' :: s2 =>
      match readNumber 10 3 255 false s2 with
      | none => none
      | some (b, s3) =>
        match s3 with
        | '.' :: s4 =>
          match readNumber 10 3 255 false s4 with
          | none => none
          | some (c, s5) =>
            match s5 with
            | '.' :: s6 =>
              match readNumber 10 3 255 false s6 with
              | none => none
              | some (d, s7) => some ((a, b, c, d), s7)
            | _ => none
        | _ => none
    | _ => none

/-- Parser::read_separator(':', i, inner): a ':' is required before
every group but the first of a run. -/
def readSepNum (i : Nat) (s : List Char) : Option (Nat × List Char) :=
  if 0 < i then
    match s with
    | ':' :: rest => readNumber 16 4 0xFFFF true rest
    | _ => none
  else readNumber 16 4 0xFFFF true s

/-- Parser::read_separator(':', i, read_ipv4_addr). -/
def readSepIpv4 (i : Nat) (s : List Char) :
    Option ((Nat × Nat × Nat × Nat) × List Char) :=
  if 0 < i then
    match s with
    | ':' :: rest => readIpv4 rest
    | _ => none
  else readIpv4 s

/-- read_groups of read_ipv6_addr: up to limit groups; at any position
with two slots left a trailing embedded IPv4 address is tried first and
fills two groups. Returns the groups, the embedded-IPv4 flag and the
remainder. -/
def readGroups (limit : Nat) (i : Nat) (s : List Char) :
    List Nat × Bool × List Char :=
  if h : i < limit then
    match (if i + 1 < limit then readSepIpv4 i s else none) with
    | some ((o1, o2, o3, o4), rest) =>
      ([(o1 <<< 8) ||| o2, (o3 <<< 8) ||| o4], true, rest)
    | none =>
      match readSepNum i s with
      | some (g, rest) =>
        let (gs, b, rest') := readGroups limit (i + 1) rest
        (g :: gs, b, rest')
      | none => ([], false, s)
  else ([], false, s)
  termination_by limit - i

/-- Parser::read_ipv6_addr: head groups, then "::" and tail groups when
fewer than eight were read; the compressed middle is zero-filled. An
embedded IPv4 address may only end the address. -/
def readIpv6Groups (s : List Char) : Option (List Nat × List Char) :=
  let (head, headIpv4, rest) := readGroups 8 0 s
  if head.length = 8 then some (head, rest)
  else if headIpv4 then none
  else
    match rest with
    | ':' :: ':' :: rest2 =>
      let limit := 8 - (head.length + 1)
      let (tail, _, rest3) := readGroups limit 0 rest2
      some (head ++ List.replicate (8 - head.length - tail.length) 0 ++ tail, rest3)
    | _ => none

/-- str::parse::&lt;std::net::Ipv6Addr&gt;: the whole input must be
consumed; the eight groups become sixteen octets. -/
def stdParseIpv6 (s : List Char) : Option (List Nat) :=
  match readIpv6Groups s with
  | some (gs, []) => some (segments_to_bytes gs)
  | _ => none

/-- ipv6::from_string: delegate to the std parser, any failure mapped to
InvalidFormat. -/
def from_string (s : List Char) : Except Ipv6AddressError IPv6 :=
  match stdParseIpv6 s with
  | some bytes => .ok ⟨bytes⟩
  | none => .error .InvalidFormat

/-- ipv6::from_bytes: exactly sixteen octets. -/
def from_bytes (data : List Nat) : Except Ipv6AddressError IPv6 :=
  if data.length ≠ 16 then .error .InvalidLength
  else .ok ⟨data⟩

end ipv6

/-! ## src/parsers/mod.rs: the error taxonomy -/

inductive ValidationError where
  | BufferTooShort
  | InvalidHeaderLength
  | HeaderLengthExceedsTotalLength
  | TotalLengthExceedsBufferLength
  | InvalidPacketLength
  | Default
  deriving DecidableEq, Repr

inductive ParsingError where
  | BufferUnderflow
  | UnsupportedEthertype
  | InvalidPacketLength
  | IPv4AddressError (e : IPv4AddressError)
  | ValidationError (e : ValidationError)
  | Default
  deriving DecidableEq, Repr

/-! ## src/parsers/arp.rs: the two wire-code decoders -/

inductive Hardware where
  | Ethernet
  deriving DecidableEq, Repr

inductive Operation where
  | Request
  | Reply
  deriving DecidableEq, Repr

namespace arp

/-- impl From&lt;u16&gt; for Hardware; the wildcard arm panics, modelled as
none. -/
def hardwareFromU16 (v : Nat) : Option Hardware :=
  match v with
  | 1 => some .Ethernet
  | _ => none

/-- impl From&lt;u16&gt; for Operation; the wildcard arm panics, modelled as
none. -/
def operationFromU16 (v : Nat) : Option Operation :=
  match v with
  | 1 => some .Request
  | 2 => some .Reply
  | _ => none

end arp

/-! ## src/parsers/ipv4.rs: the IPv4 packet view

A view is its borrowed buffer; each accessor recomputes from the octet
list. Rust indexing/slicing panics are modelled by Option (none =
panic). -/

/-- The Rust slice expression buffer[a..b]; none when it would panic. -/
def sliceRange (bs : List Nat) (a b : Nat) : Option (List Nat) :=
  if a ≤ b ∧ b ≤ bs.length then some ((bs.drop a).take (b - a)) else none

/-- The big-endian 16-bit word formed by bytes at start and start+1 (the
u16::from_be_bytes of the two-byte slice). -/
def wordAt (bs : List Nat) (start : Nat) : Nat :=
  (bs.getD start 0 <<< 8) ||| bs.getD (start + 1) 0

namespace IPv4Packet

/-- IPv4Packet::read_u16. -/
def read_u16 (bs : List Nat) (start : Nat) : Except ParsingError Nat :=
  if bs.length < start + 2 then .error .BufferUnderflow
  else .ok (wordAt bs start)

/-- IPv4Packet::version, buffer[0] >> 4. -/
def version (bs : List Nat) : Option Nat :=
  (bs.get? 0).map fun b => b >>> 4

/-- IPv4Packet::ihl, (buffer[0] & 0x0F) * 4. -/
def ihl (bs : List Nat) : Option Nat :=
  (bs.get? 0).map fun b => (b &&& 0x0F) * 4

/-- IPv4Packet::dscp, buffer[1] >> 2. -/
def dscp (bs : List Nat) : Option Nat :=
  (bs.get? 1).map fun b => b >>> 2

/-- IPv4Packet::ecn, buffer[1] & 0x03. -/
def ecn (bs : List Nat) : Option Nat :=
  (bs.get? 1).map fun b => b &&& 0x03

/-- IPv4Packet::total_length. -/
def total_length (bs : List Nat) : Except ParsingError Nat :=
  read_u16 bs 2

/-- IPv4Packet::identification. -/
def identification (bs : List Nat) : Except ParsingError Nat :=
  read_u16 bs 4

/-- IPv4Packet::dont_frag, bit 0x4000 of the word at offset 6. -/
def dont_frag (bs : List Nat) : Except ParsingError Bool :=
  (read_u16 bs 6).map fun w => 0 < w &&& 0x4000

/-- IPv4Packet::more_frags, bit 0x2000 of the word at offset 6. -/
def more_frags (bs : List Nat) : Except ParsingError Bool :=
  (read_u16 bs 6).map fun w => 0 < w &&& 0x2000

/-- IPv4Packet::fragment_offset, the low 13 bits of the word at
offset 6. -/
def fragment_offset (bs : List Nat) : Except ParsingError Nat :=
  (read_u16 bs 6).map fun w => w &&& 0x1FFF

/-- IPv4Packet::ttl, buffer[8]. -/
def ttl (bs : List Nat) : Option Nat :=
  bs.get? 8

/-- IPv4Packet::protocol, buffer[9]. -/
def protocol (bs : List Nat) : Option Nat :=
  bs.get? 9

/-- IPv4Packet::checksum, the word at offset 10. -/
def checksum (bs : List Nat) : Except ParsingError Nat :=
  read_u16 bs 10

/-- IPv4Packet::src_addr: ipv4::from_bytes over buffer[12..16]; the
slice panics (none) when the buffer is shorter than 16. -/
def src_addr (bs : List Nat) : Option (Except ParsingError IPv4) :=
  (sliceRange bs 12 16).map fun s =>
    match ipv4.from_bytes s with
    | .ok a => .ok a
    | .error e => .error (.IPv4AddressError e)

/-- IPv4Packet::dst_addr: ipv4::from_bytes over buffer[16..20]. -/
def dst_addr (bs : List Nat) : Option (Except ParsingError IPv4) :=
  (sliceRange bs 16 20).map fun s =>
    match ipv4.from_bytes s with
    | .ok a => .ok a
    | .error e => .error (.IPv4AddressError e)

/-- IPv4Packet::options: buffer[20..ihl] when ihl > 20, else empty;
reading ihl or slicing can panic. -/
def options (bs : List Nat) : Option (List Nat) :=
  (ihl bs).bind fun l =>
    if 20 < l then sliceRange bs 20 l else some []

/-- IPv4Packet::check_length: the three-stage validation. Its first test
guarantees the later ihl read cannot panic. -/
def check_length (bs : List Nat) : Except ParsingError Unit :=
  if bs.length < 20 then .error (.ValidationError .InvalidHeaderLength)
  else
    match total_length bs with
    | .error e => .error e
    | .ok tl =>
      if bs.length < tl then .error (.ValidationError .TotalLengthExceedsBufferLength)
      else
        let l := (bs.getD 0 0 &&& 0x0F) * 4
        if l < 20 ∨ tl < l then .error (.ValidationError .InvalidHeaderLength)
        else .ok ()

/-- IPv4Packet::new_with_validation: the view is the buffer, so the
constructor reduces to its check. -/
def new_with_validation (bs : List Nat) : Except ParsingError Unit :=
  check_length bs

/-- IPv4Packet::payload: buffer[ihl..total_length] behind the in-method
bounds test; reading ihl panics on an empty buffer. -/
def payload (bs : List Nat) : Option (Except ParsingError (List Nat)) :=
  (ihl bs).map fun l =>
    match total_length bs with
    | .error e => .error e
    | .ok tl =>
      if tl < l ∨ l < 20 ∨ bs.length < tl then .error .InvalidPacketLength
      else ((bs.drop l).take (tl - l) : List Nat) |> .ok

/-- IPv4Packet::Key. -/
structure Key where
  id : Nat
  src : IPv4
  dst : IPv4
  proto : Nat
  deriving DecidableEq, Repr

/-- IPv4Packet::key: the struct literal evaluates identification,
src_addr, dst_addr, protocol in order; the address reads can panic. -/
def key (bs : List Nat) : Option (Except ParsingError Key) :=
  match identification bs with
  | .error e => some (.error e)
  | .ok id =>
    match src_addr bs with
    | none => none
    | some (.error e) => some (.error e)
    | some (.ok s) =>
      match dst_addr bs with
      | none => none
      | some (.error e) => some (.error e)
      | some (.ok d) =>
        match protocol bs with
        | none => none
        | some p => some (.ok ⟨id, s, d, p⟩)

/-- The summation loop of IPv4Packet::verify_checksum from offset i:
the 16-bit word (offset 10 read as zero), added with immediate
end-around-carry folding; a two-byte read outside the buffer is the
loop's error arm. -/
def checksumLoop (bs : List Nat) (l : Nat) (i : Nat) (sum : Nat) :
    Except ParsingError Nat :=
  if h : i < l then
    match (if i = 10 then some [0, 0] else sliceRange bs i (i + 2)) with
    | none => .error .InvalidPacketLength
    | some w =>
      let word := if i = 10 then 0 else wordAt bs i
      let s := sum + word
      let s' := if 0xFFFF < s then (s &&& 0xFFFF) + (s >>> 16) else s
      checksumLoop bs l (i + 2) s'
  else .ok sum
  termination_by l - i

/-- IPv4Packet::verify_checksum: guard 20 ≤ ihl ≤ len, then the folding
sum over the header words with the checksum word zeroed, compared with
0xFFFF. Reading ihl panics (none) on an empty buffer. -/
def verify_checksum (bs : List Nat) : Option (Except ParsingError Bool) :=
  (ihl bs).map fun l =>
    if l < 20 ∨ bs.length < l then .error (.ValidationError .InvalidHeaderLength)
    else (checksumLoop bs l 0 0).map fun s => s = 0xFFFF

end IPv4Packet

/-! ## src/parsers/ipv6.rs: the IPv6 packet view -/

namespace IPv6Packet

/-- IPv6Packet::read_u16 (same shape as the IPv4 one). -/
def read_u16 (bs : List Nat) (start : Nat) : Except ParsingError Nat :=
  if bs.length < start + 2 then .error .BufferUnderflow
  else .ok (wordAt bs start)

/-- IPv6Packet::payload_length, the word at offset 4. -/
def payload_length (bs : List Nat) : Except ParsingError Nat :=
  read_u16 bs 4

/-- IPv6Packet::total_length = header_length (40) + payload_length. -/
def total_length (bs : List Nat) : Except ParsingError Nat :=
  (payload_length bs).map (40 + ·)

/-- IPv6Packet::check_length: len < 40, or, that passing, len <
total_length, is InvalidPacketLength (the first disjunct short-circuits
before total_length is read). -/
def check_length (bs : List Nat) : Except ParsingError Unit :=
  if bs.length < 40 then .error (.ValidationError .InvalidPacketLength)
  else
    match total_length bs with
    | .error e => .error e
    | .ok tl =>
      if bs.length < tl then .error (.ValidationError .InvalidPacketLength)
      else .ok ()

/-- IPv6Packet::new_with_validation. -/
def new_with_validation (bs : List Nat) : Except ParsingError Unit :=
  check_length bs

/-- IPv6Packet::payload: after the buffer-shorter-than-total test, the
whole remainder buffer[40..]. -/
def payload (bs : List Nat) : Except ParsingError (List Nat) :=
  match total_length bs with
  | .error e => .error e
  | .ok tl =>
    if bs.length < tl then .error (.ValidationError .InvalidPacketLength)
    else .ok (bs.drop 40)

/-- IPv6Packet::version, buffer[0] >> 4. -/
def version (bs : List Nat) : Option Nat :=
  (bs.get? 0).map fun b => b >>> 4

/-- IPv6Packet::traffic_class, ((buffer[0] & 0x0f) << 4) |
(buffer[1] >> 4). -/
def traffic_class (bs : List Nat) : Option Nat :=
  (bs.get? 0).bind fun b0 => (bs.get? 1).map fun b1 =>
    ((b0 &&& 0x0f) <<< 4) ||| (b1 >>> 4)

/-- IPv6Packet::flow_label, ((buffer[1] & 0x0f) << 16) |
(buffer[2] << 8) | buffer[3]. -/
def flow_label (bs : List Nat) : Option Nat :=
  (bs.get? 1).bind fun b1 => (bs.get? 2).bind fun b2 => (bs.get? 3).map fun b3 =>
    ((b1 &&& 0x0f) <<< 16) ||| (b2 <<< 8) ||| b3

end IPv6Packet

/-! ## src/assemblers/ipv6.rs: the IPv6 packet builder

Each setter writes in place; buffer[i] = v panics (none) when i is out
of range. Shifts of u8/u32 values keep only the bits of the value's
type, written with an explicit mask. -/

namespace IPv6Builder

/-- One Rust u8 store buffer[i] = v. -/
def setByte (bs : List Nat) (i v : Nat) : Option (List Nat) :=
  if i < bs.length then some (bs.set i v) else none

/-- assemblers::ipv6 IPv6Packet::set_version:
buffer[0] = (buffer[0] & 0x0F) | (version << 4), the u8 shift keeping
the low byte. -/
def set_version (bs : List Nat) (version : Nat) : Option (List Nat) :=
  (bs.get? 0).bind fun b0 =>
    setByte bs 0 ((b0 &&& 0x0F) ||| ((version <<< 4) &&& 0xFF))

/-- assemblers::ipv6 IPv6Packet::set_traffic_class: high nibble into
byte 0's low nibble, low nibble into byte 1's high nibble. -/
def set_traffic_class (bs : List Nat) (tc : Nat) : Option (List Nat) :=
  (bs.get? 0).bind fun b0 =>
    (setByte bs 0 ((b0 &&& 0xF0) ||| (tc >>> 4))).bind fun bs1 =>
      (bs1.get? 1).bind fun b1 =>
        setByte bs1 1 ((b1 &&& 0x0F) ||| ((tc <<< 4) &&& 0xFF))

/-- assemblers::ipv6 IPv6Packet::set_flow_label: bits 16..19 into byte
1's low nibble, bits 8..15 into byte 2, bits 0..7 into byte 3. -/
def set_flow_label (bs : List Nat) (fl : Nat) : Option (List Nat) :=
  (bs.get? 1).bind fun b1 =>
    (setByte bs 1 ((b1 &&& 0xF0) ||| ((fl >>> 16) &&& 0x0F))).bind fun bs2 =>
      (setByte bs2 2 ((fl >>> 8) &&& 0xFF)).bind fun bs3 =>
        setByte bs3 3 (fl &&& 0xFF)

end IPv6Builder

/-! ## The IPv4 builder, absent from the sources

Modelled from the spec: the repository has no IPv4 assembler under src
(only the Ethernet and IPv6 assemblers exist); §4.3 prescribes builders
as mask-then-OR setters matching the decoder's exact bit layout, naming
the IPv4 version/IHL and DSCP/ECN pairs. The decoder layout is
parsers/ipv4.rs: version = byte0 >> 4, IHL nibble = byte0 & 0x0F,
DSCP = byte1 >> 2, ECN = byte1 & 0x03. -/

namespace IPv4Builder

/-- Modelled from the spec: write the version nibble of byte 0,
preserving the IHL nibble (mask-then-OR, u8 shift truncation as in the
IPv6 builder). -/
def set_version (bs : List Nat) (v : Nat) : Option (List Nat) :=
  (bs.get? 0).bind fun b0 =>
    IPv6Builder.setByte bs 0 ((b0 &&& 0x0F) ||| ((v <<< 4) &&& 0xFF))

/-- Modelled from the spec: write the IHL nibble of byte 0, preserving
the version nibble. -/
def set_ihl_field (bs : List Nat) (v : Nat) : Option (List Nat) :=
  (bs.get? 0).bind fun b0 =>
    IPv6Builder.setByte bs 0 ((b0 &&& 0xF0) ||| (v &&& 0x0F))

/-- Modelled from the spec: write the six DSCP bits of byte 1,
preserving the ECN bits. -/
def set_dscp (bs : List Nat) (v : Nat) : Option (List Nat) :=
  (bs.get? 1).bind fun b1 =>
    IPv6Builder.setByte bs 1 ((b1 &&& 0x03) ||| ((v <<< 2) &&& 0xFF))

/-- Modelled from the spec: write the two ECN bits of byte 1, preserving
the DSCP bits. -/
def set_ecn (bs : List Nat) (v : Nat) : Option (List Nat) :=
  (bs.get? 1).bind fun b1 =>
    IPv6Builder.setByte bs 1 ((b1 &&& 0xFC) ||| (v &&& 0x03))

end IPv4Builder

/-! ## Specification-side definitions

Each is written from the wording of the specification/claims, to be
compared with the source-translated functions above. -/

/-- Spec wording (C3): the three-stage IPv4 validation cascade — buffer
length at least 20, total-length field within the buffer, header length
(IHL nibble times four) between 20 and the total length. -/
def specIPv4Check (bs : List Nat) : Except ParsingError Unit :=
  let total := wordAt bs 2
  let hlen := (bs.getD 0 0 % 16) * 4
  if bs.length < 20 then .error (.ValidationError .InvalidHeaderLength)
  else if bs.length < total then .error (.ValidationError .TotalLengthExceedsBufferLength)
  else if hlen < 20 ∨ total < hlen then .error (.ValidationError .InvalidHeaderLength)
  else .ok ()

/-- Spec wording (C2): one addition of the running one's-complement sum
— whenever the sum exceeds 16 bits the carry is folded back in. -/
def foldCarry (s w : Nat) : Nat :=
  let t := s + w
  if 0xFFFF < t then (t &&& 0xFFFF) + (t >>> 16) else t

/-- Spec wording (C2): the end-around-carry sum of a word list. -/
def onesCompFold (ws : List Nat) : Nat :=
  ws.foldl foldCarry 0

/-- Spec wording (C1, glossary): all big-endian 16-bit words of the
first l header bytes, the stored checksum word included. -/
def ipv4HeaderWords (bs : List Nat) (l : Nat) : List Nat :=
  (List.range (l / 2)).map fun k => wordAt bs (2 * k)

/-- Spec wording (C2): the header words with the checksum field's own
word (offset 10) replaced by zero. -/
def ipv4HeaderWordsZeroCk (bs : List Nat) (l : Nat) : List Nat :=
  (List.range (l / 2)).map fun k => if 2 * k = 10 then 0 else wordAt bs (2 * k)

/-- Spec wording (C4): the IPv6 total length as the claim states it,
40 plus the payload-length field. -/
def specIPv6Total (bs : List Nat) : Nat :=
  40 + wordAt bs 4

/-- Spec wording (C9): a hexadecimal digit. -/
def isHexDigit (c : Char) : Bool :=
  (toDigit 16 c).isSome

/-- Spec wording (C9): the big-endian value denoted by a run of
hexadecimal digits. -/
def hexRunValue (s : List Char) : Nat :=
  s.foldl (fun a c => a * 16 + (toDigit 16 c).getD 0) 0

/-- Spec wording (C9, amended): mac::parse after delimiter stripping —
InvalidLength unless exactly 12 bytes remain, then the 48-bit value of
the 12 hex digits, a leading '+' before 11 hex digits also accepted
(the Rust from_str_radix sign), else InvalidCharacter. -/
def specMacParse (s : List Char) : Except MacAddressParseError MacAddress :=
  let t := s.filter fun c => ¬(c = ':' ∨ c = '-' ∨ c = '.')
  if utf8Length t ≠ 12 then .error .InvalidLength
  else if t.all isHexDigit then .ok ⟨hexRunValue t⟩
  else if t.head? = some '+' ∧ t.tail.all isHexDigit then .ok ⟨hexRunValue t.tail⟩
  else .error .InvalidCharacter

/-- Spec wording (C8): hex groups joined by ':', a leading ':' before
every group when colonFirst is set. -/
def sepPrint (colonFirst : Bool) : List Nat → List Char
  | [] => []
  | g :: gs => (if colonFirst then [':'] else []) ++ toBase 16 g ++ sepPrint true gs

/-- Spec wording (C8): the first zero run compressed to one "::", the
groups before it and the groups after it printed as colon-separated
lowercase hex without leading zeros. -/
def runFormat (ss : List Nat) : List Char :=
  if 0 ∈ ss then
    sepPrint false (ss.takeWhile (· ≠ 0)) ++ [':', ':']
      ++ sepPrint false ((ss.dropWhile (· ≠ 0)).dropWhile (· = 0))
  else sepPrint false ss

/-- Spec wording (C8): the IPv4-mapped exception — "::ffff:" then the
last four octets in decimal. -/
def mappedFormat (bs : List Nat) : List Char :=
  [':', ':', 'f', 'f', 'f', 'f', ':']
    ++ toBase 10 (bs.getD 12 0) ++ '.' :: toBase 10 (bs.getD 13 0)
    ++ '.' :: toBase 10 (bs.getD 14 0) ++ '.' :: toBase 10 (bs.getD 15 0)

/-- A string that does not begin with a digit of the radix (the greedy
number parser consumes nothing from it). -/
def noDigitStart (radix : Nat) : List Char → Bool
  | [] => true
  | c :: _ => (toDigit radix c).isNone

/-! ## Arithmetic helper lemmas -/

theorem and_15_eq_mod (x : Nat) : x &&& 15 = x % 16 :=
  Nat.and_pow_two_sub_one_eq_mod x 4

theorem and_255_eq_mod (x : Nat) : x &&& 255 = x % 256 :=
  Nat.and_pow_two_sub_one_eq_mod x 8

theorem and_ffff_eq_mod (x : Nat) : x &&& 65535 = x % 65536 :=
  Nat.and_pow_two_sub_one_eq_mod x 16

theorem shl_or_eq_add {k : Nat} (a b : Nat) (h : b < 2 ^ k) :
    (a <<< k) ||| b = a * 2 ^ k + b := by
  rw [Nat.shiftLeft_eq, Nat.mul_comm]
  exact (Nat.mul_add_lt_is_or h a).symm

theorem shr_eq_div (x k : Nat) : x >>> k = x / 2 ^ k :=
  Nat.shiftRight_eq_div_pow x k

/-! ## Claim theorems -/

/-- Claim C5: decoding an unknown ARP code aborts — every u16 other
than 1 panics in the Hardware conversion (modelled none), every u16
other than 1 or 2 panics in the Operation conversion, while the known
codes decode to their variants. -/
theorem arp_unknown_code_panics :
    (∀ v : Nat, v < 65536 → v ≠ 1 → arp.hardwareFromU16 v = none) ∧
    (∀ v : Nat, v < 65536 → v ≠ 1 → v ≠ 2 → arp.operationFromU16 v = none) ∧
    arp.hardwareFromU16 1 = some .Ethernet ∧
    arp.operationFromU16 1 = some .Request ∧
    arp.operationFromU16 2 = some .Reply := by
  refine ⟨?_, ?_, rfl, rfl, rfl⟩
  · intro v _ h1
    match v, h1 with
    | 0, _ => rfl
    | (n + 2), _ => rfl
  · intro v _ h1 h2
    match v, h1, h2 with
    | 0, _, _ => rfl
    | (n + 3), _, _ => rfl

/-- Closed instance of arp_unknown_code_panics at the concrete codes 0,
7 and 0x0800. -/
theorem arp_unknown_code_panics_witness :
    arp.hardwareFromU16 0 = none ∧ arp.hardwareFromU16 2048 = none ∧
    arp.operationFromU16 7 = none :=
  ⟨arp_unknown_code_panics.1 0 (by norm_num) (by norm_num),
   arp_unknown_code_panics.1 2048 (by norm_num) (by norm_num),
   arp_unknown_code_panics.2.1 7 (by norm_num) (by norm_num) (by norm_num)⟩

/-- Claim C3: IPv4Packet::new_with_validation is exactly the three-stage
cascade (length ≥ 20 else InvalidHeaderLength, total-length field within
the buffer else TotalLengthExceedsBufferLength, 20 ≤ IHL·4 ≤ total
length else InvalidHeaderLength); it rejects the 1-byte buffer and
accepts the minimal 20-byte header whose total-length field is 20. -/
theorem ipv4_validation_cascade :
    (∀ bs : List Nat, IPv4Packet.new_with_validation bs = specIPv4Check bs) ∧
    IPv4Packet.new_with_validation [0x45] =
      .error (.ValidationError .InvalidHeaderLength) ∧
    IPv4Packet.new_with_validation
      [0x45, 0, 0, 0x14, 0, 0, 0x40, 0, 0x40, 0x11, 0xb8, 0x54,
       0x7f, 0, 0, 1, 0x7f, 0, 0, 1] = .ok () := by
  refine ⟨?_, rfl, rfl⟩
  intro bs
  unfold IPv4Packet.new_with_validation IPv4Packet.check_length specIPv4Check
  unfold IPv4Packet.total_length IPv4Packet.read_u16
  rcases Nat.lt_or_ge bs.length 20 with h | h
  · simp [h]
  · have h4 : ¬bs.length < 2 + 2 := by omega
    have hn : bs.getD 0 0 &&& 15 = bs.getD 0 0 % 16 := and_15_eq_mod _
    simp only [if_neg (by omega : ¬bs.length < 20), h4, if_false, hn]

/-- Claim C1 (code bug): the 20-byte header below stores at bytes 10-11
the correct one's-complement checksum 0x3CD7 — the end-around-carry
total over all ten header words, stored word included, is the all-ones
value 0xFFFF — yet verify_checksum answers Ok(false), because it zeroes
the stored word and compares the remaining sum with 0xFFFF. Conversely
a header whose other words already fold to 0xFFFF answers Ok(true), and
flipping a bit inside its checksum field (byte 10: 0x00 to 0x80) leaves
the answer Ok(true), so the claimed bit-flip sensitivity also fails. -/
theorem ipv4_verify_checksum_ignores_stored_word :
    onesCompFold (ipv4HeaderWords
      [0x45, 0, 0, 0x14, 0, 0, 0x40, 0, 0x40, 0x11, 0x3C, 0xD7,
       0x7F, 0, 0, 1, 0x7F, 0, 0, 1] 20) = 0xFFFF ∧
    IPv4Packet.verify_checksum
      [0x45, 0, 0, 0x14, 0, 0, 0x40, 0, 0x40, 0x11, 0x3C, 0xD7,
       0x7F, 0, 0, 1, 0x7F, 0, 0, 1] = some (.ok false) ∧
    IPv4Packet.verify_checksum
      [0x45, 0, 0, 0x14, 0x3C, 0xD7, 0x40, 0, 0x40, 0x11, 0, 0,
       0x7F, 0, 0, 1, 0x7F, 0, 0, 1] = some (.ok true) ∧
    IPv4Packet.verify_checksum
      [0x45, 0, 0, 0x14, 0x3C, 0xD7, 0x40, 0, 0x40, 0x11, 0x80, 0,
       0x7F, 0, 0, 1, 0x7F, 0, 0, 1] = some (.ok true) := by
  refine ⟨by decide, ?_, ?_, ?_⟩ <;>
    · simp [IPv4Packet.verify_checksum, IPv4Packet.ihl, IPv4Packet.checksumLoop,
        sliceRange, wordAt]
      decide

/-- Counterexample to claim C4 as stated: a 41-byte buffer whose
payload-length field is 0 (total_length 40) passes validation, yet
payload returns the byte at index 40 = total_length, which the claim
says is excluded (bytes[40..total_length] is empty here). -/
theorem ipv6_payload_counterexample :
    IPv6Packet.new_with_validation (List.replicate 40 0 ++ [171]) = .ok () ∧
    IPv6Packet.total_length (List.replicate 40 0 ++ [171]) = .ok 40 ∧
    IPv6Packet.payload (List.replicate 40 0 ++ [171]) = .ok [171] ∧
    (((List.replicate 40 0 ++ [171]).drop 40).take (40 - 40) : List Nat) = [] := by
  refine ⟨by decide, by decide, by decide, by decide⟩

/-- Claim C4 as amended: validation passes exactly when the buffer holds
at least 40 bytes and at least total_length = 40 + payload-length-field
bytes (otherwise InvalidPacketLength), and for every buffer that passes,
payload returns all of bytes[40..buffer length] — bytes at and beyond
total_length included. -/
theorem ipv6_payload_after_validation :
    (∀ bs : List Nat, IPv6Packet.new_with_validation bs =
      (if bs.length < 40 ∨ bs.length < specIPv6Total bs
       then .error (.ValidationError .InvalidPacketLength) else .ok ())) ∧
    (∀ bs : List Nat, IPv6Packet.new_with_validation bs = .ok () →
      IPv6Packet.payload bs = .ok (bs.drop 40)) := by
  have hmain : ∀ bs : List Nat, IPv6Packet.new_with_validation bs =
      (if bs.length < 40 ∨ bs.length < specIPv6Total bs
       then .error (.ValidationError .InvalidPacketLength) else .ok ()) := by
    intro bs
    unfold IPv6Packet.new_with_validation IPv6Packet.check_length
    unfold IPv6Packet.total_length IPv6Packet.payload_length IPv6Packet.read_u16
    unfold specIPv6Total
    rcases Nat.lt_or_ge bs.length 40 with h | h
    · simp [h]
    · have h6 : ¬bs.length < 4 + 2 := by omega
      simp only [if_neg (by omega : ¬bs.length < 40), h6, if_false, Except.map]
      rcases Nat.lt_or_ge bs.length (40 + wordAt bs 4) with h2 | h2
      · simp [h2]
      · simp [Nat.not_lt.mpr h2, Nat.not_lt.mpr h]
  refine ⟨hmain, fun bs hok => ?_⟩
  rw [hmain bs] at hok
  by_cases hc : bs.length < 40 ∨ bs.length < specIPv6Total bs
  · rw [if_pos hc] at hok
    exact absurd hok (by simp)
  · push_neg at hc
    unfold IPv6Packet.payload IPv6Packet.total_length IPv6Packet.payload_length
    unfold IPv6Packet.read_u16
    have h6 : ¬bs.length < 4 + 2 := by omega
    have h2 : ¬bs.length < 40 + wordAt bs 4 := by
      have := hc.2
      unfold specIPv6Total at this
      omega
    simp [h6, h2, Except.map]

/-- Closed instance of ipv6_payload_after_validation at the 41-byte
counterexample buffer. -/
theorem ipv6_payload_after_validation_witness :
    IPv6Packet.payload (List.replicate 40 0 ++ [171]) = .ok [171] :=
  (ipv6_payload_after_validation.2 (List.replicate 40 0 ++ [171])
    (by decide)).trans (by decide)

/-- The verify_checksum loop, run over words that all lie inside the
buffer, folds them onto the running sum and cannot error. -/
theorem checksumLoop_ok (bs : List Nat) (l : Nat) (hlen : l ≤ bs.length) :
    ∀ (n i sum : Nat), i + 2 * n = l →
      IPv4Packet.checksumLoop bs l i sum =
        .ok (((List.range n).map fun k =>
          if i + 2 * k = 10 then 0 else wordAt bs (i + 2 * k)).foldl foldCarry sum) := by
  intro n
  induction n with
  | zero =>
    intro i sum hi
    rw [IPv4Packet.checksumLoop]
    simp [show ¬i < l by omega]
  | succ n ih =>
    intro i sum hi
    have hil : i < l := by omega
    have hslice : sliceRange bs i (i + 2) =
        some ((bs.drop i).take 2) := by
      unfold sliceRange
      rw [if_pos (by omega)]
      simp
    rw [IPv4Packet.checksumLoop]
    rw [dif_pos hil]
    have hrec := ih (i + 2) (foldCarry sum (if i = 10 then 0 else wordAt bs i)) (by omega)
    have hlist : ((List.range (n + 1)).map fun k =>
        if i + 2 * k = 10 then 0 else wordAt bs (i + 2 * k)).foldl foldCarry sum =
        ((List.range n).map fun k =>
          if i + 2 + 2 * k = 10 then 0 else wordAt bs (i + 2 + 2 * k)).foldl foldCarry
          (foldCarry sum (if i = 10 then 0 else wordAt bs i)) := by
      rw [List.range_succ_eq_map, List.map_cons, List.foldl_cons, List.map_map]
      have hf0 : (if i + 2 * 0 = 10 then (0 : Nat) else wordAt bs (i + 2 * 0)) =
          (if i = 10 then 0 else wordAt bs i) := by
        norm_num
      rw [hf0]
      congr 1
      apply List.map_congr_left
      intro k _
      simp only [Function.comp_apply, Nat.succ_eq_add_one]
      have e1 : i + 2 * (k + 1) = i + 2 + 2 * k := by omega
      rw [e1]
    rw [hlist]
    rcases Nat.decEq i 10 with h10 | h10
    · simp only [if_neg h10] at hrec ⊢
      simp only [hslice]
      change IPv4Packet.checksumLoop bs l (i + 2) (foldCarry sum (wordAt bs i)) = _
      rw [hrec]
    · subst h10
      simp only [if_pos rfl, eq_self_iff_true, if_true] at hrec ⊢
      change IPv4Packet.checksumLoop bs l (10 + 2) (foldCarry sum 0) = _
      rw [hrec]

/-- Claim C2: for a nonempty buffer, verify_checksum answers
InvalidHeaderLength when the decoded header length leaves [20, buffer
length], and otherwise Ok(b) with b true exactly when the end-around-
carry sum of the header's big-endian words, the checksum word read as
zero, is 0xFFFF. -/
theorem ipv4_verify_checksum_spec (bs : List Nat) (hne : bs ≠ []) :
    IPv4Packet.verify_checksum bs = some (
      if (bs.getD 0 0 % 16) * 4 < 20 ∨ bs.length < (bs.getD 0 0 % 16) * 4
      then .error (.ValidationError .InvalidHeaderLength)
      else .ok (onesCompFold (ipv4HeaderWordsZeroCk bs ((bs.getD 0 0 % 16) * 4)) = 0xFFFF)) := by
  rcases bs with _ | ⟨b, rest⟩
  · exact absurd rfl hne
  · set bs := b :: rest with hbs
    have hihl : IPv4Packet.ihl bs = some ((b &&& 15) * 4) := rfl
    have hD : bs.getD 0 0 = b := rfl
    unfold IPv4Packet.verify_checksum
    rw [hihl, Option.map_some']
    rw [hD, ← and_15_eq_mod b]
    set l := (b &&& 15) * 4 with hl
    rcases Classical.em (l < 20 ∨ bs.length < l) with hguard | hguard
    · rw [if_pos hguard, if_pos hguard]
    · rw [if_neg hguard, if_neg hguard]
      push_neg at hguard
      have hloop := checksumLoop_ok bs l hguard.2 (l / 2) 0 0 (by omega)
      rw [hloop]
      simp only [Except.map]
      have hPQ : ((List.range (l / 2)).map fun k =>
          if 0 + 2 * k = 10 then 0 else wordAt bs (0 + 2 * k)).foldl foldCarry 0 =
          onesCompFold (ipv4HeaderWordsZeroCk bs l) := by
        unfold onesCompFold ipv4HeaderWordsZeroCk
        congr 1
        apply List.map_congr_left
        intro k _
        simp only [Nat.zero_add]
      rw [hPQ]

/-- Closed instance of ipv4_verify_checksum_spec at a concrete 20-byte
header whose non-checksum words fold to 0xFFFF. -/
theorem ipv4_verify_checksum_spec_witness :
    IPv4Packet.verify_checksum
      [0x45, 0, 0, 0x14, 0x3C, 0xD7, 0x40, 0, 0x40, 0x11, 0, 0,
       0x7F, 0, 0, 1, 0x7F, 0, 0, 1] = some (.ok true) :=
  (ipv4_verify_checksum_spec
      [0x45, 0, 0, 0x14, 0x3C, 0xD7, 0x40, 0, 0x40, 0x11, 0, 0,
       0x7F, 0, 0, 1, 0x7F, 0, 0, 1] (by decide)).trans (by decide)

/-- Every character occupies at least one UTF-8 byte. -/
theorem length_le_utf8Length (s : List Char) : s.length ≤ utf8Length s := by
  induction s with
  | nil => simp [utf8Length]
  | cons c cs ih =>
    have hc : 1 ≤ c.utf8Size := by
      have := Char.utf8Size_pos c
      omega
    simp only [utf8Length, List.map_cons, List.sum_cons, List.length_cons] at *
    omega

/-- A hex-digit lookup yields a value below 16 (0 when absent). -/
theorem toDigit16_getD_lt (c : Char) : (toDigit 16 c).getD 0 < 16 := by
  unfold toDigit
  rcases h : (if 48 ≤ c.toNat ∧ c.toNat ≤ 57 then some (c.toNat - 48)
    else if 97 ≤ c.toNat ∧ c.toNat ≤ 122 then some (c.toNat - 97 + 10)
    else if 65 ≤ c.toNat ∧ c.toNat ≤ 90 then some (c.toNat - 65 + 10)
    else none) with _ | d
  · simp [Option.bind]
  · simp only [Option.bind, h]
    split
    · simpa
    · simp

/-- The hex accumulator never decreases. -/
theorem hexFold_mono (ds : List Char) :
    ∀ a : Nat, a ≤ ds.foldl (fun x c => x * 16 + (toDigit 16 c).getD 0) a := by
  induction ds with
  | nil => intro a; simp
  | cons c cs ih =>
    intro a
    have h1 : a ≤ a * 16 + (toDigit 16 c).getD 0 := by omega
    simp only [List.foldl_cons]
    exact le_trans h1 (ih (a * 16 + (toDigit 16 c).getD 0))

/-- The hex accumulator over n digits stays below (a+1)·16^n. -/
theorem hexFold_lt (ds : List Char) :
    ∀ a : Nat, ds.foldl (fun x c => x * 16 + (toDigit 16 c).getD 0) a
      < (a + 1) * 16 ^ ds.length := by
  induction ds with
  | nil => intro a; simp
  | cons c cs ih =>
    intro a
    have hd := toDigit16_getD_lt c
    have h1 := ih (a * 16 + (toDigit 16 c).getD 0)
    simp only [List.foldl_cons, List.length_cons]
    have h2 : (a * 16 + (toDigit 16 c).getD 0 + 1) * 16 ^ cs.length ≤
        (a + 1) * 16 ^ (cs.length + 1) := by
      have hmul : a * 16 + (toDigit 16 c).getD 0 + 1 ≤ (a + 1) * 16 := by omega
      have e : (a + 1) * 16 ^ (cs.length + 1) = ((a + 1) * 16) * 16 ^ cs.length := by
        ring
      rw [e]
      exact Nat.mul_le_mul_right _ hmul
    exact lt_of_lt_of_le h1 h2

/-- On an all-hex digit run whose value fits the capacity, the
from_str_radix loop returns the accumulated value. -/
theorem radixAccum_hex (cap : Nat) (ds : List Char) :
    ∀ acc : Nat, (∀ c ∈ ds, isHexDigit c = true) →
      ds.foldl (fun x c => x * 16 + (toDigit 16 c).getD 0) acc ≤ cap →
      radixAccum 16 cap ds acc =
        some (ds.foldl (fun x c => x * 16 + (toDigit 16 c).getD 0) acc) := by
  induction ds with
  | nil => intro acc _ _; rfl
  | cons c cs ih =>
    intro acc hhex hle
    have hc : isHexDigit c = true := hhex c (by simp)
    unfold isHexDigit at hc
    rcases hsome : toDigit 16 c with _ | d
    · rw [hsome] at hc; simp at hc
    · have hd : (toDigit 16 c).getD 0 = d := by rw [hsome]; rfl
      unfold radixAccum
      rw [hsome]
      simp only [List.foldl_cons, hd] at hle ⊢
      have hmono := hexFold_mono cs (acc * 16 + d)
      rw [if_pos (by omega)]
      exact ih (acc * 16 + d) (fun x hx => hhex x (by simp [hx])) hle

/-- A non-hex character anywhere makes the loop fail. -/
theorem radixAccum_not_hex (cap : Nat) (ds : List Char) :
    ∀ acc : Nat, ¬(ds.all isHexDigit = true) →
      radixAccum 16 cap ds acc = none := by
  induction ds with
  | nil => intro acc h; simp at h
  | cons c cs ih =>
    intro acc h
    rcases hsome : toDigit 16 c with _ | d
    · unfold radixAccum
      rw [hsome]
    · have hc : isHexDigit c = true := by unfold isHexDigit; rw [hsome]; rfl
      have hcs : ¬(cs.all isHexDigit = true) := by
        simp only [List.all_cons, hc, Bool.true_and] at h
        exact h
      unfold radixAccum
      rw [hsome]
      show (if acc * 16 + d ≤ cap then radixAccum 16 cap cs (acc * 16 + d) else none) = none
      by_cases hcap : acc * 16 + d ≤ cap
      · rw [if_pos hcap]
        exact ih _ hcs
      · rw [if_neg hcap]

/-- The accumulated value of at most twelve hex digits fits u64. -/
theorem hexFold_le_cap (ds : List Char) (hlen : ds.length ≤ 12) :
    ds.foldl (fun x c => x * 16 + (toDigit 16 c).getD 0) 0 ≤ 2 ^ 64 - 1 := by
  have h1 := hexFold_lt ds 0
  have h2 : (16 : Nat) ^ ds.length ≤ 16 ^ 12 :=
    Nat.pow_le_pow_right (by norm_num) hlen
  have h3 : (16 : Nat) ^ 12 ≤ 2 ^ 64 - 1 := by norm_num
  omega

/-- Counterexample to claim C9 as stated: after stripping, the input
"+0000000000a" is 12 characters, not all of them hexadecimal digits
('+' is not one), yet parse returns Ok(MacAddress(10)) rather than
Err(InvalidCharacter), because Rust's u64::from_str_radix accepts a
leading plus sign. -/
theorem mac_parse_counterexample :
    mac.parse ("+0000000000a".toList) = .ok ⟨10⟩ ∧
    isHexDigit '+' = false ∧
    ("+0000000000a".toList.filter fun c => ¬(c = ':' ∨ c = '-' ∨ c = '.')).length = 12 := by
  refine ⟨by decide, by decide, by decide⟩

/-- Claim C9 as amended: parse strips every ':', '-' and '.'; it is
Err(InvalidLength) iff the rest is not exactly 12 bytes; on 12 bytes it
is Ok of the value denoted when all 12 characters are hex digits or
when a leading '+' is followed by 11 hex digits (the from_str_radix
sign), and Err(InvalidCharacter) otherwise; the three delimiter
conventions of the zero address all parse to MacAddress(0). -/
theorem mac_parse_spec :
    (∀ s : List Char, mac.parse s = specMacParse s) ∧
    mac.parse ("00-00-00-00-00-00".toList) = .ok ⟨0⟩ ∧
    mac.parse ("00:00:00:00:00:00".toList) = .ok ⟨0⟩ ∧
    mac.parse ("0000.0000.0000".toList) = .ok ⟨0⟩ := by
  refine ⟨?_, by decide, by decide, by decide⟩
  intro s
  unfold mac.parse specMacParse
  set t := s.filter fun c => ¬(c = ':' ∨ c = '-' ∨ c = '.') with ht
  by_cases hlen : utf8Length t ≠ 12
  · rw [if_pos hlen, if_pos hlen]
  · rw [if_neg hlen, if_neg hlen]
    push_neg at hlen
    have htlen : t.length ≤ 12 := by
      have := length_le_utf8Length t
      omega
    rcases hcase : t with _ | ⟨c, rest⟩
    · rw [hcase] at hlen
      simp [utf8Length] at hlen
    · rw [hcase] at hlen htlen
      by_cases hplus : c = '+'
      · subst hplus
        have hrest : utf8Length rest = 11 := by
          have : ('+').utf8Size = 1 := by decide
          simp [utf8Length, this] at hlen ⊢
          omega
        have hrne : rest ≠ [] := by
          intro he
          rw [he] at hrest
          simp [utf8Length] at hrest
        have hfrom : fromStrRadix16U64 ('+' :: rest) =
            (if rest.isEmpty then none else radixAccum 16 (2 ^ 64 - 1) rest 0) := rfl
        have hne : rest.isEmpty = false := by
          rcases rest with _ | _
          · exact absurd rfl hrne
          · rfl
        rw [hfrom, hne]
        simp only [Bool.false_eq_true, if_false]
        have hallt : (('+' :: rest).all isHexDigit) = false := by
          simp [List.all_cons, show isHexDigit '+' = false from by decide]
        rw [hallt]
        simp only [Bool.false_eq_true, if_false]
        by_cases hhex : rest.all isHexDigit = true
        · rw [radixAccum_hex _ rest 0 (by simpa [List.all_eq_true] using hhex)
            (hexFold_le_cap rest (by simp at htlen; omega))]
          rw [if_pos (by simp [hhex])]
          rfl
        · rw [radixAccum_not_hex _ rest 0 hhex]
          rw [if_neg (by simp [hhex])]
      · have hfrom : fromStrRadix16U64 (c :: rest) =
            (if (c :: rest).isEmpty then none
             else radixAccum 16 (2 ^ 64 - 1) (c :: rest) 0) := by
          unfold fromStrRadix16U64
          split
          · rename_i heq
            injection heq with h1 h2
            exact absurd h1 hplus
          · rfl
        rw [hfrom]
        simp only [List.isEmpty_cons, Bool.false_eq_true, if_false]
        by_cases hhex : (c :: rest).all isHexDigit = true
        · rw [radixAccum_hex _ (c :: rest) 0 (by simpa [List.all_eq_true] using hhex)
            (hexFold_le_cap (c :: rest) htlen)]
          rw [if_pos hhex]
          rfl
        · rw [radixAccum_not_hex _ (c :: rest) 0 hhex]
          rw [if_neg hhex]
          rw [if_neg (by simp [hplus])]

/-- A lookup below the length is some. -/
theorem get?_isSome_of_lt {α : Type} (l : List α) {i : Nat} (h : i < l.length) :
    (l.get? i).isSome = true := by
  rw [List.get?_eq_get h]
  rfl

/-- What passing the IPv4 length check guarantees: at least 20 bytes,
the total-length word within the buffer, and the decoded header length
between 20 and the total length. -/
theorem check_length_ok_facts (bs : List Nat)
    (hok : IPv4Packet.check_length bs = .ok ()) :
    20 ≤ bs.length ∧ wordAt bs 2 ≤ bs.length ∧
    20 ≤ (bs.getD 0 0 &&& 15) * 4 ∧ (bs.getD 0 0 &&& 15) * 4 ≤ wordAt bs 2 := by
  unfold IPv4Packet.check_length IPv4Packet.total_length IPv4Packet.read_u16 at hok
  by_cases h20 : bs.length < 20
  · simp [h20] at hok
  · simp only [if_neg h20, if_neg (show ¬bs.length < 2 + 2 by omega)] at hok
    by_cases htl : bs.length < wordAt bs 2
    · simp [htl] at hok
    · simp only [if_neg htl] at hok
      by_cases hihl : (bs.getD 0 0 &&& 0x0F) * 4 < 20 ∨ wordAt bs 2 < (bs.getD 0 0 &&& 0x0F) * 4
      · rw [if_pos hihl] at hok
        exact Except.noConfusion hok
      · push_neg at hihl
        omega

/-- Claim C10: once new_with_validation succeeds, every accessor is
total — the direct-indexing accessors do not panic, and every fallible
accessor returns Ok. -/
theorem ipv4_accessors_total_after_validation (bs : List Nat)
    (hok : IPv4Packet.new_with_validation bs = .ok ()) :
    (IPv4Packet.version bs).isSome = true ∧
    (IPv4Packet.ihl bs).isSome = true ∧
    (IPv4Packet.dscp bs).isSome = true ∧
    (IPv4Packet.ecn bs).isSome = true ∧
    (IPv4Packet.ttl bs).isSome = true ∧
    (IPv4Packet.protocol bs).isSome = true ∧
    (IPv4Packet.options bs).isSome = true ∧
    (IPv4Packet.total_length bs).isOk = true ∧
    (IPv4Packet.identification bs).isOk = true ∧
    (IPv4Packet.dont_frag bs).isOk = true ∧
    (IPv4Packet.more_frags bs).isOk = true ∧
    (IPv4Packet.fragment_offset bs).isOk = true ∧
    (IPv4Packet.checksum bs).isOk = true ∧
    (∃ a, IPv4Packet.src_addr bs = some (.ok a)) ∧
    (∃ a, IPv4Packet.dst_addr bs = some (.ok a)) ∧
    (∃ p, IPv4Packet.payload bs = some (.ok p)) ∧
    (∃ k, IPv4Packet.key bs = some (.ok k)) ∧
    (∃ b, IPv4Packet.verify_checksum bs = some (.ok b)) := by
  obtain ⟨h20, htl, hihl20, hihltl⟩ := check_length_ok_facts bs hok
  have hlen2 : ∀ start : Nat, start + 2 ≤ 20 → (IPv4Packet.read_u16 bs start).isOk = true := by
    intro start hs
    unfold IPv4Packet.read_u16
    rw [if_neg (by omega)]
    rfl
  have hget0 : bs.get? 0 = some (bs.getD 0 0) := by
    rw [List.get?_eq_get (by omega : 0 < bs.length)]
    simp [List.getD_eq_getElem?_getD, List.getElem?_eq_getElem (by omega : 0 < bs.length)]
  have hihl : IPv4Packet.ihl bs = some ((bs.getD 0 0 &&& 15) * 4) := by
    unfold IPv4Packet.ihl
    rw [hget0]
    rfl
  have htotal : IPv4Packet.total_length bs = .ok (wordAt bs 2) := by
    unfold IPv4Packet.total_length IPv4Packet.read_u16
    rw [if_neg (by omega)]
  have hsrc : ∃ a, IPv4Packet.src_addr bs = some (.ok a) := by
    unfold IPv4Packet.src_addr sliceRange
    rw [if_pos (by omega)]
    refine ⟨⟨(bs.drop 12).getD 0 0, (bs.drop 12).getD 1 0,
      (bs.drop 12).getD 2 0, (bs.drop 12).getD 3 0⟩, ?_⟩
    simp only [Option.map_some']
    have hlen4 : ((bs.drop 12).take (16 - 12)).length = 4 := by
      rw [List.length_take, List.length_drop]
      omega
    unfold ipv4.from_bytes
    rw [if_neg (by omega)]
    congr 1 <;> simp [List.getD_eq_getElem?_getD, List.getElem?_take]
  have hdst : ∃ a, IPv4Packet.dst_addr bs = some (.ok a) := by
    unfold IPv4Packet.dst_addr sliceRange
    rw [if_pos (by omega)]
    refine ⟨⟨(bs.drop 16).getD 0 0, (bs.drop 16).getD 1 0,
      (bs.drop 16).getD 2 0, (bs.drop 16).getD 3 0⟩, ?_⟩
    simp only [Option.map_some']
    have hlen4 : ((bs.drop 16).take (20 - 16)).length = 4 := by
      rw [List.length_take, List.length_drop]
      omega
    unfold ipv4.from_bytes
    rw [if_neg (by omega)]
    congr 1 <;> simp [List.getD_eq_getElem?_getD, List.getElem?_take]
  refine ⟨?_, ?_, ?_, ?_, ?_, ?_, ?_, ?_, ?_, ?_, ?_, ?_, ?_, hsrc, hdst, ?_, ?_, ?_⟩
  · unfold IPv4Packet.version
    rw [List.get?_eq_get (by omega : 0 < bs.length)]
    rfl
  · rw [hihl]; rfl
  · unfold IPv4Packet.dscp
    rw [List.get?_eq_get (by omega : 1 < bs.length)]
    rfl
  · unfold IPv4Packet.ecn
    rw [List.get?_eq_get (by omega : 1 < bs.length)]
    rfl
  · unfold IPv4Packet.ttl
    exact get?_isSome_of_lt bs (by omega)
  · unfold IPv4Packet.protocol
    exact get?_isSome_of_lt bs (by omega)
  · unfold IPv4Packet.options
    rw [hihl]
    simp only [Option.some_bind]
    by_cases hl : 20 < (bs.getD 0 0 &&& 15) * 4
    · rw [if_pos hl]
      unfold sliceRange
      rw [if_pos (show 20 ≤ (bs.getD 0 0 &&& 15) * 4 ∧
        (bs.getD 0 0 &&& 15) * 4 ≤ bs.length from by constructor <;> omega)]
      rfl
    · rw [if_neg hl]
      rfl
  · exact hlen2 2 (by omega)
  · exact hlen2 4 (by omega)
  · unfold IPv4Packet.dont_frag
    have := hlen2 6 (by omega)
    unfold IPv4Packet.read_u16 at this ⊢
    rw [if_neg (by omega)]
    rfl
  · unfold IPv4Packet.more_frags IPv4Packet.read_u16
    rw [if_neg (by omega)]
    rfl
  · unfold IPv4Packet.fragment_offset IPv4Packet.read_u16
    rw [if_neg (by omega)]
    rfl
  · exact hlen2 10 (by omega)
  · refine ⟨(bs.drop ((bs.getD 0 0 &&& 15) * 4)).take (wordAt bs 2 - (bs.getD 0 0 &&& 15) * 4), ?_⟩
    unfold IPv4Packet.payload
    rw [hihl]
    simp only [Option.map_some']
    simp only [htotal]
    rw [if_neg (show ¬(wordAt bs 2 < (bs.getD 0 0 &&& 15) * 4 ∨
      (bs.getD 0 0 &&& 15) * 4 < 20 ∨ bs.length < wordAt bs 2) from by
        push_neg
        exact ⟨by omega, by omega, by omega⟩)]
  · obtain ⟨sa, hsa⟩ := hsrc
    obtain ⟨da, hda⟩ := hdst
    refine ⟨⟨wordAt bs 4, sa, da, bs.getD 9 0⟩, ?_⟩
    unfold IPv4Packet.key IPv4Packet.identification IPv4Packet.read_u16
    rw [if_neg (by omega)]
    rw [hsa, hda]
    unfold IPv4Packet.protocol
    rw [List.get?_eq_get (by omega : 9 < bs.length)]
    simp [List.getD_eq_getElem?_getD, List.getElem?_eq_getElem (by omega : 9 < bs.length)]
  · refine ⟨onesCompFold (ipv4HeaderWordsZeroCk bs ((bs.getD 0 0 &&& 15) * 4)) = 0xFFFF, ?_⟩
    unfold IPv4Packet.verify_checksum
    rw [hihl]
    simp only [Option.map_some']
    rw [if_neg (by omega)]
    have hloop := checksumLoop_ok bs ((bs.getD 0 0 &&& 15) * 4) (by omega)
      (((bs.getD 0 0 &&& 15) * 4) / 2) 0 0 (by omega)
    rw [hloop]
    simp only [Except.map]
    have hPQ : ((List.range ((bs.getD 0 0 &&& 15) * 4 / 2)).map fun k =>
        if 0 + 2 * k = 10 then 0 else wordAt bs (0 + 2 * k)).foldl foldCarry 0 =
        onesCompFold (ipv4HeaderWordsZeroCk bs ((bs.getD 0 0 &&& 15) * 4)) := by
      unfold onesCompFold ipv4HeaderWordsZeroCk
      congr 1
      apply List.map_congr_left
      intro k _
      simp only [Nat.zero_add]
    rw [hPQ]

/-- Closed instance of ipv4_accessors_total_after_validation at a valid
20-byte header. -/
theorem ipv4_accessors_total_after_validation_witness :
    IPv4Packet.new_with_validation
      [0x45, 0, 0, 0x14, 0, 0, 0x40, 0, 0x40, 0x11, 0xb8, 0x54,
       0x7f, 0, 0, 1, 0x7f, 0, 0, 1] = .ok () ∧
    (∃ k, IPv4Packet.key
      [0x45, 0, 0, 0x14, 0, 0, 0x40, 0, 0x40, 0x11, 0xb8, 0x54,
       0x7f, 0, 0, 1, 0x7f, 0, 0, 1] = some (.ok k)) := by
  refine ⟨by decide, ?_⟩
  have h := ipv4_accessors_total_after_validation
    [0x45, 0, 0, 0x14, 0, 0, 0x40, 0, 0x40, 0x11, 0xb8, 0x54,
     0x7f, 0, 0, 1, 0x7f, 0, 0, 1] (by decide)
  exact h.2.2.2.2.2.2.2.2.2.2.2.2.2.2.2.2.1

/-! ## Bit-packing helper lemmas for the builder claims -/

theorem and_mask_window (x k m : Nat) :
    x &&& ((2 ^ m - 1) <<< k) = x / 2 ^ k % 2 ^ m * 2 ^ k := by
  have hr : x / 2 ^ k % 2 ^ m * 2 ^ k = ((x >>> k) &&& (2 ^ m - 1)) <<< k := by
    rw [Nat.and_pow_two_sub_one_eq_mod, Nat.shiftRight_eq_div_pow, Nat.shiftLeft_eq]
  rw [hr]
  apply Nat.eq_of_testBit_eq
  intro i
  simp only [Nat.testBit_and, Nat.testBit_shiftLeft, Nat.testBit_shiftRight,
    Nat.testBit_two_pow_sub_one]
  by_cases hik : k ≤ i
  · have he : k + (i - k) = i := by omega
    by_cases hm : i - k < m
    · simp [hik, he, hm]
    · simp [hik, he, hm]
  · simp [show ¬i ≥ k from hik]

theorem and_3_eq_mod (x : Nat) : x &&& 3 = x % 4 :=
  Nat.and_pow_two_sub_one_eq_mod x 2

theorem and_240_eq (x : Nat) : x &&& 240 = x / 16 % 16 * 16 := by
  have h := and_mask_window x 4 4
  norm_num at h
  exact h

theorem and_252_eq (x : Nat) : x &&& 252 = x / 4 % 64 * 4 := by
  have h := and_mask_window x 2 6
  norm_num at h
  exact h

theorem orPack1 (b t : Nat) :
    (b &&& 15) ||| ((t <<< 4) &&& 255) = t % 16 * 16 + b % 16 := by
  have h1 : (t <<< 4) &&& 255 = (t % 16) <<< 4 := by
    rw [Nat.shiftLeft_eq, and_255_eq_mod, Nat.shiftLeft_eq]
    show t * 16 % 256 = t % 16 * 16
    omega
  have h3 : b &&& 15 < 2 ^ 4 := by
    rw [and_15_eq_mod]
    omega
  calc (b &&& 15) ||| ((t <<< 4) &&& 255)
      = ((t % 16) <<< 4) ||| (b &&& 15) := by rw [h1, Nat.lor_comm]
    _ = t % 16 * 2 ^ 4 + (b &&& 15) := shl_or_eq_add _ _ h3
    _ = t % 16 * 16 + b % 16 := by rw [and_15_eq_mod]; norm_num

theorem orPack2 (b s : Nat) (hs : s < 16) :
    (b &&& 240) ||| s = b / 16 % 16 * 16 + s := by
  have h1 : b &&& 240 = (b / 16 % 16) <<< 4 := by
    rw [and_240_eq, Nat.shiftLeft_eq]
  calc (b &&& 240) ||| s
      = ((b / 16 % 16) <<< 4) ||| s := by rw [h1]
    _ = b / 16 % 16 * 2 ^ 4 + s := shl_or_eq_add _ _ (show s < 2 ^ 4 from hs)
    _ = b / 16 % 16 * 16 + s := rfl

theorem orPack3 (b d : Nat) :
    (b &&& 3) ||| ((d <<< 2) &&& 255) = d % 64 * 4 + b % 4 := by
  have h1 : (d <<< 2) &&& 255 = (d % 64) <<< 2 := by
    rw [Nat.shiftLeft_eq, and_255_eq_mod, Nat.shiftLeft_eq]
    show d * 4 % 256 = d % 64 * 4
    omega
  have h3 : b &&& 3 < 2 ^ 2 := by
    rw [and_3_eq_mod]
    omega
  calc (b &&& 3) ||| ((d <<< 2) &&& 255)
      = ((d % 64) <<< 2) ||| (b &&& 3) := by rw [h1, Nat.lor_comm]
    _ = d % 64 * 2 ^ 2 + (b &&& 3) := shl_or_eq_add _ _ h3
    _ = d % 64 * 4 + b % 4 := by rw [and_3_eq_mod]; norm_num

theorem orPack4 (b e : Nat) :
    (b &&& 252) ||| (e &&& 3) = b / 4 % 64 * 4 + e % 4 := by
  have h1 : b &&& 252 = (b / 4 % 64) <<< 2 := by
    rw [and_252_eq, Nat.shiftLeft_eq]
  have h3 : e &&& 3 < 2 ^ 2 := by
    rw [and_3_eq_mod]
    omega
  calc (b &&& 252) ||| (e &&& 3)
      = ((b / 4 % 64) <<< 2) ||| (e &&& 3) := by rw [h1]
    _ = b / 4 % 64 * 2 ^ 2 + (e &&& 3) := shl_or_eq_add _ _ h3
    _ = b / 4 % 64 * 4 + e % 4 := by rw [and_3_eq_mod]; norm_num

theorem tcRead (b0 b1 : Nat) (h1 : b1 < 256) :
    ((b0 &&& 15) <<< 4) ||| (b1 >>> 4) = b0 % 16 * 16 + b1 / 16 := by
  have hdiv : b1 >>> 4 < 2 ^ 4 := by
    rw [shr_eq_div]
    show b1 / 2 ^ 4 < 2 ^ 4
    norm_num
    omega
  calc ((b0 &&& 15) <<< 4) ||| (b1 >>> 4)
      = (b0 &&& 15) * 2 ^ 4 + b1 >>> 4 := shl_or_eq_add _ _ hdiv
    _ = b0 % 16 * 16 + b1 / 16 := by
        rw [and_15_eq_mod, shr_eq_div]
        rfl

theorem flRead (b1 b2 b3 : Nat) (h2 : b2 < 256) (h3 : b3 < 256) :
    (((b1 &&& 15) <<< 16) ||| (b2 <<< 8)) ||| b3 =
      b1 % 16 * 65536 + b2 * 256 + b3 := by
  have hb2 : b2 <<< 8 < 2 ^ 16 := by
    rw [Nat.shiftLeft_eq]
    show b2 * 2 ^ 8 < 2 ^ 16
    norm_num
    omega
  have hfirst : ((b1 &&& 15) <<< 16) ||| (b2 <<< 8) =
      (b1 % 16 * 256 + b2) <<< 8 := by
    calc ((b1 &&& 15) <<< 16) ||| (b2 <<< 8)
        = (b1 &&& 15) * 2 ^ 16 + b2 <<< 8 := shl_or_eq_add _ _ hb2
      _ = (b1 % 16 * 256 + b2) <<< 8 := by
          rw [and_15_eq_mod, Nat.shiftLeft_eq, Nat.shiftLeft_eq]
          show b1 % 16 * 2 ^ 16 + b2 * 2 ^ 8 = (b1 % 16 * 256 + b2) * 2 ^ 8
          ring
  calc (((b1 &&& 15) <<< 16) ||| (b2 <<< 8)) ||| b3
      = ((b1 % 16 * 256 + b2) <<< 8) ||| b3 := by rw [hfirst]
    _ = (b1 % 16 * 256 + b2) * 2 ^ 8 + b3 :=
        shl_or_eq_add _ _ (show b3 < 2 ^ 8 by norm_num; omega)
    _ = b1 % 16 * 65536 + b2 * 256 + b3 := by ring

/-- A list of length at least four starts with four explicit cells. -/
theorem exists_four_cons {α : Type} (l : List α) (h : 4 ≤ l.length) :
    ∃ a b c d t, l = a :: b :: c :: d :: t := by
  rcases l with _ | ⟨a, l⟩
  · simp at h
  rcases l with _ | ⟨b, l⟩
  · simp at h
  rcases l with _ | ⟨c, l⟩
  · simp at h
  rcases l with _ | ⟨d, l⟩
  · simp at h
  exact ⟨a, b, c, d, l, rfl⟩

/-- Counterexample to claim C6 as stated: writing version 16 through the
IPv6 builder on the all-zero header and reading it back yields 0, not
16 — the u8 shift discards the bits above the 4-bit field — so "for
every written value" fails. (The sibling traffic-class bits are still
preserved.) -/
theorem builder_setter_counterexample :
    IPv6Builder.set_version (List.replicate 40 0) 16 = some (List.replicate 40 0) ∧
    (IPv6Builder.set_version (List.replicate 40 0) 16).bind IPv6Packet.version
      = some 0 ∧
    (16 : Nat) ≠ 0 := by
  refine ⟨by decide, by decide, by decide⟩

/-! Byte-level identities for the builder setters. -/

theorem nib_hi_read (b v : Nat) (hv : v < 16) :
    ((b &&& 15) ||| ((v <<< 4) &&& 255)) >>> 4 = v := by
  rw [orPack1, shr_eq_div]
  omega

theorem nib_hi_keep_lo (b v : Nat) :
    (((b &&& 15) ||| ((v <<< 4) &&& 255))) &&& 15 = b &&& 15 := by
  rw [orPack1, and_15_eq_mod, and_15_eq_mod]
  omega

theorem nib_lo_keep_hi (b z : Nat) (hb : b < 256) (hz : z < 16) :
    ((b &&& 240) ||| z) >>> 4 = b >>> 4 := by
  rw [orPack2 _ _ hz, shr_eq_div, shr_eq_div]
  omega

theorem nib_lo_read (b z : Nat) (hz : z < 16) :
    ((b &&& 240) ||| z) &&& 15 = z := by
  rw [orPack2 _ _ hz, and_15_eq_mod]
  omega

theorem tc_read_back (b0 b1 tc : Nat) (hb1 : b1 < 256) (htc : tc < 256) :
    (((((b0 &&& 240) ||| (tc >>> 4))) &&& 15) <<< 4) |||
      (((b1 &&& 15) ||| ((tc <<< 4) &&& 255)) >>> 4) = tc := by
  have htc16 : tc >>> 4 < 16 := by
    rw [shr_eq_div]
    omega
  have hY : (b1 &&& 15) ||| ((tc <<< 4) &&& 255) < 256 := by
    rw [orPack1]
    omega
  rw [tcRead _ _ hY, orPack2 _ _ htc16, orPack1]
  simp only [shr_eq_div]
  omega

theorem fl_read_back (b1 fl : Nat) (hfl : fl < 2 ^ 20) :
    (((((b1 &&& 240) ||| ((fl >>> 16) &&& 15))) &&& 15) <<< 16) |||
      (((fl >>> 8) &&& 255) <<< 8) ||| (fl &&& 255) = fl := by
  have hz : (fl >>> 16) &&& 15 < 16 := by
    rw [and_15_eq_mod]
    omega
  have h2 : (fl >>> 8) &&& 255 < 256 := by
    rw [and_255_eq_mod]
    omega
  have h3 : fl &&& 255 < 256 := by
    rw [and_255_eq_mod]
    omega
  rw [flRead _ _ _ h2 h3, orPack2 _ _ hz]
  simp only [and_15_eq_mod, and_255_eq_mod, shr_eq_div]
  omega

theorem dscp_read (b d : Nat) (hd : d < 64) :
    ((b &&& 3) ||| ((d <<< 2) &&& 255)) >>> 2 = d := by
  rw [orPack3, shr_eq_div]
  omega

theorem dscp_keep (b d : Nat) :
    ((b &&& 3) ||| ((d <<< 2) &&& 255)) &&& 3 = b &&& 3 := by
  rw [orPack3, and_3_eq_mod, and_3_eq_mod]
  omega

theorem ecn_read (b e : Nat) (he : e < 4) :
    ((b &&& 252) ||| (e &&& 3)) &&& 3 = e := by
  rw [orPack4, and_3_eq_mod]
  omega

theorem ecn_keep (b e : Nat) (hb : b < 256) :
    ((b &&& 252) ||| (e &&& 3)) >>> 2 = b >>> 2 := by
  rw [orPack4, shr_eq_div, shr_eq_div]
  omega

/-- Claim C6 as amended: for every prior buffer of octets (at least four
bytes long) and every value that fits the written field's width, each
packed-bit-field setter stores the value so the decoder reads it back,
and leaves its byte-sharing sibling fields unchanged — IPv6
version/traffic-class/flow-label from the source builder, IPv4
version/IHL and DSCP/ECN from the spec-modelled builder. -/
theorem builder_setters_preserve_siblings :
    (∀ (bs : List Nat) (v : Nat), 4 ≤ bs.length → (∀ b ∈ bs, b < 256) → v < 16 →
      ∃ bs', IPv6Builder.set_version bs v = some bs' ∧
        IPv6Packet.version bs' = some v ∧
        IPv6Packet.traffic_class bs' = IPv6Packet.traffic_class bs ∧
        IPv6Packet.flow_label bs' = IPv6Packet.flow_label bs) ∧
    (∀ (bs : List Nat) (tc : Nat), 4 ≤ bs.length → (∀ b ∈ bs, b < 256) → tc < 256 →
      ∃ bs', IPv6Builder.set_traffic_class bs tc = some bs' ∧
        IPv6Packet.traffic_class bs' = some tc ∧
        IPv6Packet.version bs' = IPv6Packet.version bs ∧
        IPv6Packet.flow_label bs' = IPv6Packet.flow_label bs) ∧
    (∀ (bs : List Nat) (fl : Nat), 4 ≤ bs.length → (∀ b ∈ bs, b < 256) → fl < 2 ^ 20 →
      ∃ bs', IPv6Builder.set_flow_label bs fl = some bs' ∧
        IPv6Packet.flow_label bs' = some fl ∧
        IPv6Packet.version bs' = IPv6Packet.version bs ∧
        IPv6Packet.traffic_class bs' = IPv6Packet.traffic_class bs) ∧
    (∀ (bs : List Nat) (v : Nat), 4 ≤ bs.length → (∀ b ∈ bs, b < 256) → v < 16 →
      ∃ bs', IPv4Builder.set_version bs v = some bs' ∧
        IPv4Packet.version bs' = some v ∧
        IPv4Packet.ihl bs' = IPv4Packet.ihl bs) ∧
    (∀ (bs : List Nat) (x : Nat), 4 ≤ bs.length → (∀ b ∈ bs, b < 256) → x < 16 →
      ∃ bs', IPv4Builder.set_ihl_field bs x = some bs' ∧
        IPv4Packet.ihl bs' = some (x * 4) ∧
        IPv4Packet.version bs' = IPv4Packet.version bs) ∧
    (∀ (bs : List Nat) (d : Nat), 4 ≤ bs.length → (∀ b ∈ bs, b < 256) → d < 64 →
      ∃ bs', IPv4Builder.set_dscp bs d = some bs' ∧
        IPv4Packet.dscp bs' = some d ∧
        IPv4Packet.ecn bs' = IPv4Packet.ecn bs) ∧
    (∀ (bs : List Nat) (e : Nat), 4 ≤ bs.length → (∀ b ∈ bs, b < 256) → e < 4 →
      ∃ bs', IPv4Builder.set_ecn bs e = some bs' ∧
        IPv4Packet.ecn bs' = some e ∧
        IPv4Packet.dscp bs' = IPv4Packet.dscp bs) := by
  refine ⟨?_, ?_, ?_, ?_, ?_, ?_, ?_⟩
  · intro bs v hlen hwf hv
    obtain ⟨b0, b1, b2, b3, t, rfl⟩ := exists_four_cons bs hlen
    refine ⟨((b0 &&& 15) ||| ((v <<< 4) &&& 255)) :: b1 :: b2 :: b3 :: t, rfl, ?_, ?_, rfl⟩
    · show some (((b0 &&& 15) ||| ((v <<< 4) &&& 255)) >>> 4) = some v
      rw [nib_hi_read _ _ hv]
    · show some (((((b0 &&& 15) ||| ((v <<< 4) &&& 255))) &&& 15) <<< 4 ||| (b1 >>> 4)) =
        some (((b0 &&& 15) <<< 4) ||| (b1 >>> 4))
      rw [nib_hi_keep_lo]
  · intro bs tc hlen hwf htc
    obtain ⟨b0, b1, b2, b3, t, rfl⟩ := exists_four_cons bs hlen
    have hb0 : b0 < 256 := hwf b0 (by simp)
    have hb1 : b1 < 256 := hwf b1 (by simp)
    have htc16 : tc >>> 4 < 16 := by
      rw [shr_eq_div]
      omega
    refine ⟨((b0 &&& 240) ||| (tc >>> 4)) ::
      ((b1 &&& 15) ||| ((tc <<< 4) &&& 255)) :: b2 :: b3 :: t, rfl, ?_, ?_, ?_⟩
    · show some ((((((b0 &&& 240) ||| (tc >>> 4))) &&& 15) <<< 4) |||
        ((((b1 &&& 15) ||| ((tc <<< 4) &&& 255))) >>> 4)) = some tc
      rw [tc_read_back _ _ _ hb1 htc]
    · show some (((b0 &&& 240) ||| (tc >>> 4)) >>> 4) = some (b0 >>> 4)
      rw [nib_lo_keep_hi _ _ hb0 htc16]
    · show some (((((b1 &&& 15) ||| ((tc <<< 4) &&& 255))) &&& 15) <<< 16 |||
        (b2 <<< 8) ||| b3) = some (((b1 &&& 15) <<< 16) ||| (b2 <<< 8) ||| b3)
      rw [nib_hi_keep_lo]
  · intro bs fl hlen hwf hfl
    obtain ⟨b0, b1, b2, b3, t, rfl⟩ := exists_four_cons bs hlen
    have hb1 : b1 < 256 := hwf b1 (by simp)
    have hz : (fl >>> 16) &&& 15 < 16 := by
      rw [and_15_eq_mod]
      omega
    have hset : IPv6Builder.set_flow_label (b0 :: b1 :: b2 :: b3 :: t) fl =
        some (b0 :: ((b1 &&& 240) ||| ((fl >>> 16) &&& 15)) ::
          ((fl >>> 8) &&& 255) :: (fl &&& 255) :: t) := by
      unfold IPv6Builder.set_flow_label IPv6Builder.setByte
      simp [List.set]
    refine ⟨b0 :: ((b1 &&& 240) ||| ((fl >>> 16) &&& 15)) ::
      ((fl >>> 8) &&& 255) :: (fl &&& 255) :: t, hset, ?_, rfl, ?_⟩
    · show some ((((((b1 &&& 240) ||| ((fl >>> 16) &&& 15))) &&& 15) <<< 16) |||
        ((((fl >>> 8) &&& 255)) <<< 8) ||| (fl &&& 255)) = some fl
      rw [fl_read_back _ _ hfl]
    · show some (((b0 &&& 15) <<< 4) |||
        ((((b1 &&& 240) ||| ((fl >>> 16) &&& 15))) >>> 4)) =
        some (((b0 &&& 15) <<< 4) ||| (b1 >>> 4))
      rw [nib_lo_keep_hi _ _ hb1 hz]
  · intro bs v hlen hwf hv
    obtain ⟨b0, b1, b2, b3, t, rfl⟩ := exists_four_cons bs hlen
    refine ⟨((b0 &&& 15) ||| ((v <<< 4) &&& 255)) :: b1 :: b2 :: b3 :: t, rfl, ?_, ?_⟩
    · show some (((b0 &&& 15) ||| ((v <<< 4) &&& 255)) >>> 4) = some v
      rw [nib_hi_read _ _ hv]
    · show some (((((b0 &&& 15) ||| ((v <<< 4) &&& 255))) &&& 15) * 4) =
        some ((b0 &&& 15) * 4)
      rw [nib_hi_keep_lo]
  · intro bs x hlen hwf hx
    obtain ⟨b0, b1, b2, b3, t, rfl⟩ := exists_four_cons bs hlen
    have hb0 : b0 < 256 := hwf b0 (by simp)
    have hx15 : x &&& 15 < 16 := by
      rw [and_15_eq_mod]
      omega
    refine ⟨((b0 &&& 240) ||| (x &&& 15)) :: b1 :: b2 :: b3 :: t, rfl, ?_, ?_⟩
    · show some ((((b0 &&& 240) ||| (x &&& 15)) &&& 15) * 4) = some (x * 4)
      rw [nib_lo_read _ _ hx15, and_15_eq_mod]
      congr 1
      omega
    · show some (((b0 &&& 240) ||| (x &&& 15)) >>> 4) = some (b0 >>> 4)
      rw [nib_lo_keep_hi _ _ hb0 hx15]
  · intro bs d hlen hwf hd
    obtain ⟨b0, b1, b2, b3, t, rfl⟩ := exists_four_cons bs hlen
    refine ⟨b0 :: ((b1 &&& 3) ||| ((d <<< 2) &&& 255)) :: b2 :: b3 :: t, rfl, ?_, ?_⟩
    · show some (((b1 &&& 3) ||| ((d <<< 2) &&& 255)) >>> 2) = some d
      rw [dscp_read _ _ hd]
    · show some (((b1 &&& 3) ||| ((d <<< 2) &&& 255)) &&& 3) = some (b1 &&& 3)
      rw [dscp_keep]
  · intro bs e hlen hwf he
    obtain ⟨b0, b1, b2, b3, t, rfl⟩ := exists_four_cons bs hlen
    have hb1 : b1 < 256 := hwf b1 (by simp)
    refine ⟨b0 :: ((b1 &&& 252) ||| (e &&& 3)) :: b2 :: b3 :: t, rfl, ?_, ?_⟩
    · show some (((b1 &&& 252) ||| (e &&& 3)) &&& 3) = some e
      rw [ecn_read _ _ he]
    · show some (((b1 &&& 252) ||| (e &&& 3)) >>> 2) = some (b1 >>> 2)
      rw [ecn_keep _ _ hb1]

/-- Witness for C6 on the concrete four-byte buffer [0x60, 0x12, 0x34,
0x56] with one in-range value per field. -/
theorem builder_setters_preserve_siblings_witness :
    (∃ bs', IPv6Builder.set_version [0x60, 0x12, 0x34, 0x56] 4 = some bs' ∧
      IPv6Packet.version bs' = some 4 ∧
      IPv6Packet.traffic_class bs'
        = IPv6Packet.traffic_class [0x60, 0x12, 0x34, 0x56] ∧
      IPv6Packet.flow_label bs'
        = IPv6Packet.flow_label [0x60, 0x12, 0x34, 0x56]) ∧
    (∃ bs', IPv6Builder.set_traffic_class [0x60, 0x12, 0x34, 0x56] 0xAB
        = some bs' ∧
      IPv6Packet.traffic_class bs' = some 0xAB ∧
      IPv6Packet.version bs' = IPv6Packet.version [0x60, 0x12, 0x34, 0x56] ∧
      IPv6Packet.flow_label bs'
        = IPv6Packet.flow_label [0x60, 0x12, 0x34, 0x56]) ∧
    (∃ bs', IPv6Builder.set_flow_label [0x60, 0x12, 0x34, 0x56] 0xABCDE
        = some bs' ∧
      IPv6Packet.flow_label bs' = some 0xABCDE ∧
      IPv6Packet.version bs' = IPv6Packet.version [0x60, 0x12, 0x34, 0x56] ∧
      IPv6Packet.traffic_class bs'
        = IPv6Packet.traffic_class [0x60, 0x12, 0x34, 0x56]) ∧
    (∃ bs', IPv4Builder.set_version [0x45, 0x12, 0x34, 0x56] 4 = some bs' ∧
      IPv4Packet.version bs' = some 4 ∧
      IPv4Packet.ihl bs' = IPv4Packet.ihl [0x45, 0x12, 0x34, 0x56]) ∧
    (∃ bs', IPv4Builder.set_ihl_field [0x45, 0x12, 0x34, 0x56] 5 = some bs' ∧
      IPv4Packet.ihl bs' = some (5 * 4) ∧
      IPv4Packet.version bs' = IPv4Packet.version [0x45, 0x12, 0x34, 0x56]) ∧
    (∃ bs', IPv4Builder.set_dscp [0x45, 0x12, 0x34, 0x56] 46 = some bs' ∧
      IPv4Packet.dscp bs' = some 46 ∧
      IPv4Packet.ecn bs' = IPv4Packet.ecn [0x45, 0x12, 0x34, 0x56]) ∧
    (∃ bs', IPv4Builder.set_ecn [0x45, 0x12, 0x34, 0x56] 2 = some bs' ∧
      IPv4Packet.ecn bs' = some 2 ∧
      IPv4Packet.dscp bs' = IPv4Packet.dscp [0x45, 0x12, 0x34, 0x56]) :=
  ⟨builder_setters_preserve_siblings.1 [0x60, 0x12, 0x34, 0x56] 4
      (by decide) (by decide) (by decide),
   builder_setters_preserve_siblings.2.1 [0x60, 0x12, 0x34, 0x56] 0xAB
      (by decide) (by decide) (by decide),
   builder_setters_preserve_siblings.2.2.1 [0x60, 0x12, 0x34, 0x56] 0xABCDE
      (by decide) (by decide) (by decide),
   builder_setters_preserve_siblings.2.2.2.1 [0x45, 0x12, 0x34, 0x56] 4
      (by decide) (by decide) (by decide),
   builder_setters_preserve_siblings.2.2.2.2.1 [0x45, 0x12, 0x34, 0x56] 5
      (by decide) (by decide) (by decide),
   builder_setters_preserve_siblings.2.2.2.2.2.1 [0x45, 0x12, 0x34, 0x56] 46
      (by decide) (by decide) (by decide),
   builder_setters_preserve_siblings.2.2.2.2.2.2 [0x45, 0x12, 0x34, 0x56] 2
      (by decide) (by decide) (by decide)⟩

/-! ## Digit-string lemmas for the round-trip claims -/

theorem toBase_lt {b n : Nat} (h : n < b) : toBase b n = [digitChar n] := by
  rw [toBase]
  rw [dif_pos (Or.inl h)]

theorem toBase_ge {b n : Nat} (hb : 2 ≤ b) (h : b ≤ n) :
    toBase b n = toBase b (n / b) ++ [digitChar (n % b)] := by
  rw [toBase]
  rw [dif_neg (by omega)]

theorem toBase_ne_nil (b n : Nat) : toBase b n ≠ [] := by
  rw [toBase]
  split
  · simp
  · simp

/-- Every printed digit comes from a digit value below the base. -/
theorem toBase_chars {b : Nat} (hb : 2 ≤ b) :
    ∀ n, ∀ c ∈ toBase b n, ∃ d, d < b ∧ c = digitChar d := by
  intro n
  induction n using Nat.strong_induction_on with
  | _ n ih =>
    intro c hc
    by_cases h : n < b
    · rw [toBase_lt h] at hc
      simp at hc
      exact ⟨n, h, hc⟩
    · rw [toBase_ge hb (by omega)] at hc
      rw [List.mem_append] at hc
      rcases hc with hc | hc
      · exact ih (n / b) (Nat.div_lt_self (by omega) (by omega)) c hc
      · simp at hc
        exact ⟨n % b, Nat.mod_lt _ (by omega), hc⟩

/-- Digit count of n in base b: at most k digits when n < b^k. -/
theorem toBase_length_le {b : Nat} (hb : 2 ≤ b) :
    ∀ n k, 1 ≤ k → n < b ^ k → (toBase b n).length ≤ k := by
  intro n
  induction n using Nat.strong_induction_on with
  | _ n ih =>
    intro k hk hn
    by_cases h : n < b
    · rw [toBase_lt h]
      simpa using hk
    · rw [toBase_ge hb (by omega)]
      rw [List.length_append]
      have hk2 : 2 ≤ k := by
        by_contra hk1
        have hk1' : k = 1 := by omega
        subst hk1'
        rw [pow_one] at hn
        omega
      have hdiv : n / b < b ^ (k - 1) := by
        have hbk : b ^ k = b ^ (k - 1) * b := by
          rw [← Nat.pow_succ]
          congr 1
          omega
        rw [Nat.div_lt_iff_lt_mul (by omega)]
        omega
      have := ih (n / b) (Nat.div_lt_self (by omega) (by omega)) (k - 1) (by omega) hdiv
      simp
      omega

/-- The leading digit of a positive number is not the zero digit. -/
theorem toBase_head_ne_zero {b : Nat} (hb : 2 ≤ b) (hb16 : b ≤ 16) :
    ∀ n, 1 ≤ n → ∀ c, (toBase b n).head? = some c → c ≠ '0' := by
  intro n
  induction n using Nat.strong_induction_on with
  | _ n ih =>
    intro hn c hc
    by_cases h : n < b
    · rw [toBase_lt h] at hc
      simp at hc
      subst hc
      revert hn h
      unfold digitChar
      intro hn h
      have : n < 16 := by omega
      interval_cases n <;> simp_all
    · rw [toBase_ge hb (by omega)] at hc
      rw [List.head?_append] at hc
      rcases ho : (toBase b (n / b)).head? with _ | c2
      · exact absurd ho (by
          rcases he : toBase b (n / b) with _ | _
          · exact absurd he (toBase_ne_nil b (n / b))
          · simp [he])
      · rw [ho] at hc
        simp at hc
        subst hc
        exact ih (n / b) (Nat.div_lt_self (by omega) (by omega))
          (by
            have : b ≤ n := by omega
            have := Nat.div_le_div_right (c := b) this
            rw [Nat.div_self (by omega)] at this
            omega) c2 ho

/-- The digit accumulator never decreases (any radix ≥ 1). -/
theorem radFold_mono (radix : Nat) (hr : 1 ≤ radix) (ds : List Char) :
    ∀ a : Nat, a ≤ ds.foldl (fun x c => x * radix + (toDigit radix c).getD 0) a := by
  induction ds with
  | nil => intro a; simp
  | cons c cs ih =>
    intro a
    have h1 : a ≤ a * radix + (toDigit radix c).getD 0 := by
      have := Nat.le_mul_of_pos_right a hr
      omega
    simp only [List.foldl_cons]
    exact le_trans h1 (ih (a * radix + (toDigit radix c).getD 0))

/-- Folding the digit values over a printed numeral recovers the
number. -/
theorem foldVal_toBase {b : Nat} (hb : 2 ≤ b)
    (hdig : ∀ m, m < b → toDigit b (digitChar m) = some m) :
    ∀ n acc, (toBase b n).foldl (fun a c => a * b + (toDigit b c).getD 0) acc
      = acc * b ^ (toBase b n).length + n := by
  intro n
  induction n using Nat.strong_induction_on with
  | _ n ih =>
    intro acc
    by_cases h : n < b
    · rw [toBase_lt h]
      simp [hdig n h]
    · rw [toBase_ge hb (by omega)]
      rw [List.foldl_append, List.length_append]
      rw [ih (n / b) (Nat.div_lt_self (by omega) (by omega)) acc]
      simp only [List.foldl_cons, List.foldl_nil, List.length_cons, List.length_nil]
      rw [hdig (n % b) (Nat.mod_lt _ (by omega))]
      simp only [Option.getD_some]
      have : b ^ ((toBase b (n / b)).length + (0 + 1)) =
          b ^ (toBase b (n / b)).length * b := by
        rw [← Nat.pow_succ]
      rw [this]
      have hdm : b * (n / b) + n % b = n := Nat.div_add_mod n b
      nlinarith [hdm]

/-- The greedy digit loop consumes exactly a run of digits followed by a
non-digit, accumulating their value. -/
theorem ipv6.readNumAux_digits (radix maxd cap : Nat) (hr : 1 ≤ radix) :
    ∀ (ds rest : List Char) (acc cnt : Nat),
      (∀ c ∈ ds, (toDigit radix c).isSome = true) →
      noDigitStart radix rest = true →
      ds.foldl (fun a c => a * radix + (toDigit radix c).getD 0) acc ≤ cap →
      cnt + ds.length ≤ maxd →
      ipv6.readNumAux radix maxd cap (ds ++ rest) acc cnt =
        some (ds.foldl (fun a c => a * radix + (toDigit radix c).getD 0) acc,
          cnt + ds.length, rest) := by
  intro ds
  induction ds with
  | nil =>
    intro rest acc cnt _ hnd _ _
    rcases rest with _ | ⟨c, cs⟩
    · rfl
    · rw [show noDigitStart radix (c :: cs) = (toDigit radix c).isNone from rfl] at hnd
      rcases hd : toDigit radix c with _ | d
      · unfold ipv6.readNumAux
        simp [hd]
      · rw [hd] at hnd
        simp at hnd
  | cons c ds' ih =>
    intro rest acc cnt hds hnd hcap hmax
    have hc : (toDigit radix c).isSome = true := hds c (by simp)
    rcases hd : toDigit radix c with _ | d
    · rw [hd] at hc
      simp at hc
    · have hfold : List.foldl (fun a c => a * radix + (toDigit radix c).getD 0) acc (c :: ds')
          = List.foldl (fun a c => a * radix + (toDigit radix c).getD 0) (acc * radix + d) ds' := by
        simp [hd]
      have hcap' : List.foldl (fun a c => a * radix + (toDigit radix c).getD 0)
          (acc * radix + d) ds' ≤ cap := by
        rw [← hfold]
        exact hcap
      have hmono := radFold_mono radix hr ds' (acc * radix + d)
      simp only [List.cons_append, ipv6.readNumAux, hd, List.append_eq]
      rw [if_pos (show acc * radix + d ≤ cap ∧ cnt + 1 ≤ maxd from
        ⟨le_trans hmono hcap', by simp at hmax; omega⟩)]
      rw [ih rest (acc * radix + d) (cnt + 1) (fun x hx => hds x (by simp [hx])) hnd hcap'
        (by simp at hmax ⊢; omega)]
      rw [hfold]
      have hcnt : cnt + 1 + ds'.length = cnt + (c :: ds').length := by
        simp
        omega
      rw [hcnt]

/-- A string with no leading digit yields no number. -/
theorem ipv6.readNumber_none (radix maxd cap : Nat) (azp : Bool) (s : List Char)
    (h : noDigitStart radix s = true) :
    ipv6.readNumber radix maxd cap azp s = none := by
  unfold ipv6.readNumber
  rcases s with _ | ⟨c, cs⟩
  · rfl
  · rw [show noDigitStart radix (c :: cs) = (toDigit radix c).isNone from rfl] at h
    rcases hd : toDigit radix c with _ | d
    · simp [ipv6.readNumAux, hd]
    · rw [hd] at h
      simp at h

/-- read_number over a printed numeral followed by a non-digit. -/
theorem ipv6.readNumber_digits (radix maxd cap : Nat) (hr : 1 ≤ radix) (azp : Bool)
    (ds rest : List Char) (hne : ds ≠ [])
    (hds : ∀ c ∈ ds, (toDigit radix c).isSome = true)
    (hnd : noDigitStart radix rest = true)
    (hcap : ds.foldl (fun a c => a * radix + (toDigit radix c).getD 0) 0 ≤ cap)
    (hmax : ds.length ≤ maxd)
    (hzero : azp = true ∨ ds.head? ≠ some '0' ∨ ds.length ≤ 1) :
    ipv6.readNumber radix maxd cap azp (ds ++ rest) =
      some (ds.foldl (fun a c => a * radix + (toDigit radix c).getD 0) 0, rest) := by
  unfold ipv6.readNumber
  rw [ipv6.readNumAux_digits radix maxd cap hr ds rest 0 0 hds hnd hcap (by omega)]
  have hlen : ds.length ≠ 0 := by
    intro he
    exact hne (List.eq_nil_of_length_eq_zero he)
  dsimp only
  rw [if_neg (by omega : ¬0 + ds.length = 0)]
  rcases hzero with hz | hz | hz
  · subst hz
    simp
  · have hh : (ds ++ rest).head? ≠ some '0' := by
      rcases ds with _ | ⟨c, cs⟩
      · exact absurd rfl hne
      · simpa using hz
    rw [if_neg (fun hcontra => hh hcontra.2.1)]
  · rw [if_neg (by omega)]

theorem hdig16 : ∀ m, m < 16 → toDigit 16 (digitChar m) = some m := by decide

theorem hdig10 : ∀ m, m < 10 → toDigit 10 (digitChar m) = some m := by decide

theorem toBase16_all_hex (n : Nat) :
    ∀ c ∈ toBase 16 n, (toDigit 16 c).isSome = true := by
  intro c hc
  obtain ⟨d, hd, rfl⟩ := toBase_chars (by norm_num) n c hc
  rw [hdig16 d hd]
  rfl

theorem toBase10_all_dec (n : Nat) :
    ∀ c ∈ toBase 10 n, (toDigit 10 c).isSome = true := by
  intro c hc
  obtain ⟨d, hd, rfl⟩ := toBase_chars (by norm_num) n c hc
  rw [hdig10 d hd]
  rfl

/-- Parsing a printed hex group (at most four digits, value ≤ 0xFFFF)
consumes exactly it. -/
theorem readNumber16_toBase (n : Nat) (rest : List Char) (hn : n < 65536)
    (h : noDigitStart 16 rest = true) :
    ipv6.readNumber 16 4 65535 true (toBase 16 n ++ rest) = some (n, rest) := by
  have hfold := foldVal_toBase (by norm_num) hdig16 n 0
  have hcap : (toBase 16 n).foldl (fun a c => a * 16 + (toDigit 16 c).getD 0) 0 ≤ 65535 := by
    rw [hfold]
    omega
  have hmax : (toBase 16 n).length ≤ 4 :=
    toBase_length_le (by norm_num) n 4 (by norm_num) (by norm_num; omega)
  rw [ipv6.readNumber_digits 16 4 65535 (by norm_num) true _ rest (toBase_ne_nil 16 n)
    (toBase16_all_hex n) h hcap hmax (Or.inl rfl)]
  rw [hfold]
  simp

/-- Parsing a printed decimal octet (value ≤ 255, no leading zero)
consumes exactly it. -/
theorem readNumber10_toBase (n : Nat) (rest : List Char) (hn : n < 256)
    (h : noDigitStart 10 rest = true) :
    ipv6.readNumber 10 3 255 false (toBase 10 n ++ rest) = some (n, rest) := by
  have hfold := foldVal_toBase (by norm_num) hdig10 n 0
  have hcap : (toBase 10 n).foldl (fun a c => a * 10 + (toDigit 10 c).getD 0) 0 ≤ 255 := by
    rw [hfold]
    omega
  have hmax : (toBase 10 n).length ≤ 3 :=
    toBase_length_le (by norm_num) n 3 (by norm_num) (by norm_num; omega)
  have hzero : (toBase 10 n).head? ≠ some '0' ∨ (toBase 10 n).length ≤ 1 := by
    by_cases hn10 : n < 10
    · right
      rw [toBase_lt hn10]
      rfl
    · left
      intro heq
      exact toBase_head_ne_zero (by norm_num) (by norm_num) n (by omega) '0' heq rfl
  rw [ipv6.readNumber_digits 10 3 255 (by norm_num) false _ rest (toBase_ne_nil 10 n)
    (toBase10_all_dec n) h hcap hmax (Or.inr hzero)]
  rw [hfold]
  simp

/-- The digit loop only ever discards a prefix of its input. -/
theorem ipv6.readNumAux_suffix (radix maxd cap : Nat) :
    ∀ (s : List Char) (acc cnt v cnt2 : Nat) (rest : List Char),
      ipv6.readNumAux radix maxd cap s acc cnt = some (v, cnt2, rest) →
      ∃ pre, s = pre ++ rest := by
  intro s
  induction s with
  | nil =>
    intro acc cnt v cnt2 rest h
    unfold ipv6.readNumAux at h
    injection h with h
    injection h with _ h
    injection h with _ h
    exact ⟨[], by rw [← h]; rfl⟩
  | cons c cs ih =>
    intro acc cnt v cnt2 rest h
    unfold ipv6.readNumAux at h
    rcases hd : toDigit radix c with _ | d
    · rw [hd] at h
      injection h with h
      injection h with _ h
      injection h with _ h
      exact ⟨[], by rw [← h]; rfl⟩
    · rw [hd] at h
      dsimp only at h
      by_cases hcond : acc * radix + d ≤ cap ∧ cnt + 1 ≤ maxd
      · rw [if_pos hcond] at h
        obtain ⟨pre, hpre⟩ := ih _ _ _ _ _ h
        exact ⟨c :: pre, by rw [hpre]; rfl⟩
      · rw [if_neg hcond] at h
        exact absurd h (by simp)

/-- read_number only ever discards a prefix of its input. -/
theorem ipv6.readNumber_suffix (radix maxd cap : Nat) (azp : Bool)
    (s : List Char) (v : Nat) (rest : List Char)
    (h : ipv6.readNumber radix maxd cap azp s = some (v, rest)) :
    ∃ pre, s = pre ++ rest := by
  unfold ipv6.readNumber at h
  rcases haux : ipv6.readNumAux radix maxd cap s 0 0 with _ | ⟨acc, cnt, rest2⟩
  · rw [haux] at h
    exact absurd h (by simp)
  · rw [haux] at h
    dsimp only at h
    by_cases h0 : cnt = 0
    · rw [if_pos h0] at h
      exact absurd h (by simp)
    · rw [if_neg h0] at h
      split at h
      · exact absurd h (by simp)
      · injection h with h
        injection h with h1 h2
        exact h2 ▸ ipv6.readNumAux_suffix radix maxd cap s 0 0 acc cnt rest2 haux

/-- A successful embedded-IPv4 parse means a dot was present. -/
theorem ipv6.readIpv4_dot (s : List Char) (x : (Nat × Nat × Nat × Nat) × List Char)
    (h : ipv6.readIpv4 s = some x) : '.' ∈ s := by
  unfold ipv6.readIpv4 at h
  rcases h1 : ipv6.readNumber 10 3 255 false s with _ | ⟨a, s1⟩
  · rw [h1] at h
    exact absurd h (by simp)
  · rw [h1] at h
    obtain ⟨pre, hpre⟩ := ipv6.readNumber_suffix 10 3 255 false s a s1 h1
    rcases hs1 : s1 with _ | ⟨c1, s2⟩
    · rw [hs1] at h
      exact absurd h (by simp)
    · rw [hs1] at h
      dsimp only at h
      by_cases hc1 : c1 = '.'
      · subst hc1
        rw [hpre, hs1]
        simp
      · split at h
        · rename_i heq
          injection heq with he1 he2
          exact absurd he1 hc1
        · exact absurd h (by simp)

/-- Without a dot anywhere, the embedded-IPv4 parse fails. -/
theorem ipv6.readIpv4_no_dot (s : List Char) (h : '.' ∉ s) :
    ipv6.readIpv4 s = none := by
  rcases hx : ipv6.readIpv4 s with _ | x
  · rfl
  · exact absurd (ipv6.readIpv4_dot s x hx) h

/-- Without a dot anywhere, the separated embedded-IPv4 parse fails. -/
theorem ipv6.readSepIpv4_no_dot (i : Nat) (s : List Char) (h : '.' ∉ s) :
    ipv6.readSepIpv4 i s = none := by
  unfold ipv6.readSepIpv4
  by_cases hi : 0 < i
  · rw [if_pos hi]
    rcases s with _ | ⟨c, cs⟩
    · rfl
    · by_cases hc : c = ':'
      · subst hc
        have : '.' ∉ cs := fun hin => h (by simp [hin])
        simp only [ipv6.readIpv4_no_dot cs this]
      · split
        · rename_i heq
          injection heq with he1 he2
          exact absurd he1 hc
        · rfl
  · rw [if_neg hi]
    exact ipv6.readIpv4_no_dot s h

theorem sepPrint_cons (cf : Bool) (a : Nat) (A : List Nat) :
    sepPrint cf (a :: A) =
      (if cf then [':'] else []) ++ toBase 16 a ++ sepPrint true A := rfl

/-- Every character of a printed group run is a colon or a hex digit. -/
theorem sepPrint_chars (A : List Nat) :
    ∀ (cf : Bool), ∀ c ∈ sepPrint cf A, c = ':' ∨ ∃ d, d < 16 ∧ c = digitChar d := by
  induction A with
  | nil => intro cf c hc; simp [sepPrint] at hc
  | cons a A ih =>
    intro cf c hc
    rw [sepPrint_cons] at hc
    simp only [List.append_assoc, List.mem_append] at hc
    rcases hc with hc | hc | hc
    · left
      rcases cf with _ | _
      · simp at hc
      · simpa using hc
    · right
      obtain ⟨d, hd, rfl⟩ := toBase_chars (b := 16) (by norm_num) a c hc
      exact ⟨d, hd, rfl⟩
    · exact ih true c hc

theorem sepPrint_no_dot (A : List Nat) (cf : Bool) : '.' ∉ sepPrint cf A := by
  intro hin
  rcases sepPrint_chars A cf '.' hin with h | ⟨d, hd, h⟩
  · exact absurd h (by decide)
  · revert h
    interval_cases d <;> decide

theorem noDigitStart_stop (rest : List Char)
    (hstop : rest = [] ∨ ∃ r, rest = ':' :: ':' :: r) :
    noDigitStart 16 rest = true := by
  rcases hstop with rfl | ⟨r, rfl⟩
  · rfl
  · rfl

theorem noDigitStart_sepPrint (A : List Nat) (rest : List Char)
    (hrest : noDigitStart 16 rest = true) :
    noDigitStart 16 (sepPrint true A ++ rest) = true := by
  rcases A with _ | ⟨a, A⟩
  · simpa [sepPrint]
  · rfl

/-- read_separator+number over a printed group. -/
theorem readSepNum_printed (i n : Nat) (rest : List Char) (hn : n < 65536)
    (h : noDigitStart 16 rest = true) :
    ipv6.readSepNum i ((if 0 < i then [':'] else []) ++ (toBase 16 n ++ rest)) =
      some (n, rest) := by
  unfold ipv6.readSepNum
  by_cases hi : 0 < i
  · rw [if_pos hi, if_pos hi]
    simp only [List.singleton_append]
    exact readNumber16_toBase n rest hn h
  · rw [if_neg hi, if_neg hi]
    simp only [List.nil_append]
    exact readNumber16_toBase n rest hn h

/-- At the end of the printed head ("::" or end of string) the group
reader stops. -/
theorem readSepNum_stop (i : Nat) (rest : List Char)
    (hstop : rest = [] ∨ ∃ r, rest = ':' :: ':' :: r) :
    ipv6.readSepNum i rest = none := by
  unfold ipv6.readSepNum
  rcases hstop with rfl | ⟨r, rfl⟩
  · by_cases hi : 0 < i
    · rw [if_pos hi]
    · rw [if_neg hi]
      exact ipv6.readNumber_none 16 4 65535 true [] rfl
  · by_cases hi : 0 < i
    · rw [if_pos hi]
      exact ipv6.readNumber_none 16 4 65535 true (':' :: r) rfl
    · rw [if_neg hi]
      exact ipv6.readNumber_none 16 4 65535 true (':' :: ':' :: r) rfl

/-- The std read_groups loop over a printed run of groups consumes
exactly those groups and leaves the stop marker. -/
theorem readGroups_printed (A : List Nat) :
    ∀ (i limit : Nat) (rest : List Char),
      (∀ a ∈ A, a < 65536) →
      i + A.length ≤ limit →
      '.' ∉ rest →
      (rest = [] ∨ ∃ r, rest = ':' :: ':' :: r) →
      ipv6.readGroups limit i (sepPrint (decide (0 < i)) A ++ rest) =
        (A, false, rest) := by
  induction A with
  | nil =>
    intro i limit rest _ _ hdot hstop
    simp only [sepPrint, List.nil_append]
    rw [ipv6.readGroups]
    by_cases hi : i < limit
    · rw [dif_pos hi]
      have hip : (if i + 1 < limit then ipv6.readSepIpv4 i rest else none) = none := by
        by_cases h2 : i + 1 < limit
        · rw [if_pos h2]
          exact ipv6.readSepIpv4_no_dot i rest hdot
        · rw [if_neg h2]
      rw [hip, readSepNum_stop i rest hstop]
    · rw [dif_neg hi]
  | cons a A ih =>
    intro i limit rest hA hlen hdot hstop
    have hi : i < limit := by
      simp at hlen
      omega
    have hdot2 : '.' ∉ sepPrint (decide (0 < i)) (a :: A) ++ rest := by
      intro hin
      rw [List.mem_append] at hin
      rcases hin with hin | hin
      · exact sepPrint_no_dot _ _ hin
      · exact hdot hin
    rw [ipv6.readGroups, dif_pos hi]
    have hip : (if i + 1 < limit then
        ipv6.readSepIpv4 i (sepPrint (decide (0 < i)) (a :: A) ++ rest) else none) = none := by
      by_cases h2 : i + 1 < limit
      · rw [if_pos h2]
        exact ipv6.readSepIpv4_no_dot i _ hdot2
      · rw [if_neg h2]
    rw [hip]
    have hshape : sepPrint (decide (0 < i)) (a :: A) ++ rest =
        (if 0 < i then [':'] else []) ++ (toBase 16 a ++ (sepPrint true A ++ rest)) := by
      rw [sepPrint_cons]
      by_cases hi0 : 0 < i
      · simp [hi0, List.append_assoc]
      · simp [hi0, List.append_assoc]
    rw [hshape]
    rw [readSepNum_printed i a (sepPrint true A ++ rest) (hA a (by simp))
      (noDigitStart_sepPrint A rest (noDigitStart_stop rest hstop))]
    have hrec := ih (i + 1) limit rest (fun x hx => hA x (by simp [hx]))
      (by simp at hlen ⊢; omega) hdot hstop
    rw [show (decide (0 < i + 1)) = true from by simp] at hrec
    simp only [hrec]

theorem radixAccum_append (radix cap : Nat) (xs ys : List Char) :
    ∀ acc, radixAccum radix cap (xs ++ ys) acc =
      (radixAccum radix cap xs acc).bind (radixAccum radix cap ys) := by
  induction xs with
  | nil => intro acc; rfl
  | cons c cs ih =>
    intro acc
    show radixAccum radix cap (c :: (cs ++ ys)) acc = _
    rcases hd : toDigit radix c with _ | d
    · simp [radixAccum, hd]
    · by_cases hle : acc * radix + d ≤ cap
      · simp only [radixAccum, hd, if_pos hle]
        exact ih _
      · simp [radixAccum, hd, if_neg hle]

/-- The capacity-checked digit loop over the printed digits of n
recovers n, provided the final value fits the capacity. -/
theorem radixAccum_toBase {b : Nat} (hb : 2 ≤ b)
    (hdig : ∀ m, m < b → toDigit b (digitChar m) = some m) :
    ∀ n cap acc, acc * b ^ (toBase b n).length + n ≤ cap →
      radixAccum b cap (toBase b n) acc =
        some (acc * b ^ (toBase b n).length + n)
  | n, cap, acc, hcap => by
    by_cases hn : n < b
    · have hL : (toBase b n).length = 1 := by rw [toBase_lt hn]; rfl
      rw [hL, pow_one] at hcap ⊢
      rw [toBase_lt hn]
      simp only [radixAccum, hdig n hn, if_pos hcap]
    · have hbn : b ≤ n := le_of_not_lt hn
      rw [toBase_ge hb hbn] at hcap ⊢
      have hlen : (toBase b (n / b) ++ [digitChar (n % b)]).length
          = (toBase b (n / b)).length + 1 := by simp
      rw [hlen] at hcap ⊢
      have hq : (n / b) * b + n % b = n := by
        rw [Nat.mul_comm]
        exact Nat.div_add_mod n b
      have hstep : (acc * b ^ (toBase b (n / b)).length + n / b) * b + n % b
          = acc * b ^ ((toBase b (n / b)).length + 1) + n := by
        calc (acc * b ^ (toBase b (n / b)).length + n / b) * b + n % b
            = acc * (b ^ (toBase b (n / b)).length * b) + ((n / b) * b + n % b) := by
              ring
          _ = acc * b ^ ((toBase b (n / b)).length + 1) + n := by
              rw [hq, pow_succ]
      have hmid : acc * b ^ (toBase b (n / b)).length + n / b ≤ cap := by
        calc acc * b ^ (toBase b (n / b)).length + n / b
            ≤ (acc * b ^ (toBase b (n / b)).length + n / b) * b :=
              Nat.le_mul_of_pos_right _ (by omega)
          _ ≤ (acc * b ^ (toBase b (n / b)).length + n / b) * b + n % b :=
              Nat.le_add_right _ _
          _ = acc * b ^ ((toBase b (n / b)).length + 1) + n := hstep
          _ ≤ cap := hcap
      rw [radixAccum_append,
        radixAccum_toBase hb hdig (n / b) cap acc hmid]
      have hr : n % b < b := Nat.mod_lt _ (by omega)
      have hle2 : (acc * b ^ (toBase b (n / b)).length + n / b) * b + n % b
          ≤ cap := by rw [hstep]; exact hcap
      simp only [Option.some_bind, radixAccum, hdig _ hr, if_pos hle2]
      rw [hstep]
  termination_by n _ _ _ => n
  decreasing_by exact Nat.div_lt_self (by omega) (by omega)

/-- str::parse::&lt;u8&gt; over the decimal print of a byte. -/
theorem u8FromStr_toBase (n : Nat) (hn : n < 256) :
    u8FromStr (toBase 10 n) = some n := by
  have hacc := radixAccum_toBase (b := 10) (by norm_num) hdig10 n 255 0 (by
    simp only [Nat.zero_mul, Nat.zero_add]
    omega)
  simp only [Nat.zero_mul, Nat.zero_add] at hacc
  rcases hh : toBase 10 n with _ | ⟨c, cs⟩
  · exact absurd hh (toBase_ne_nil 10 n)
  · have hc : c ≠ '+' := by
      obtain ⟨d, hd, hdc⟩ := toBase_chars (b := 10) (by norm_num) n c
        (by rw [hh]; simp)
      rw [hdc]
      interval_cases d <;> decide
    rw [hh] at hacc
    unfold u8FromStr
    split
    · next rest heq =>
        exact absurd (List.head_eq_of_cons_eq heq.symm) fun h => hc h.symm
    · next =>
        simp only [List.isEmpty_cons, Bool.false_eq_true, if_false]
        exact hacc

theorem splitOnChar_ne_nil (sep : Char) (l : List Char) :
    splitOnChar sep l ≠ [] := by
  cases l with
  | nil => simp [splitOnChar]
  | cons c cs =>
    rcases hsp : splitOnChar sep cs with _ | ⟨r, rs⟩
    · simp [splitOnChar, hsp]
    · by_cases h : c = sep <;> simp [splitOnChar, hsp, h]

theorem splitOnChar_no_sep (sep : Char) (xs : List Char) (h : sep ∉ xs) :
    splitOnChar sep xs = [xs] := by
  induction xs with
  | nil => rfl
  | cons c cs ih =>
    have hc : c ≠ sep := fun hc => h (by simp [hc])
    have ih' := ih (fun hmem => h (by simp [hmem]))
    simp [splitOnChar, ih', hc]

theorem splitOnChar_append (sep : Char) (xs rest : List Char) (h : sep ∉ xs) :
    splitOnChar sep (xs ++ sep :: rest) = xs :: splitOnChar sep rest := by
  induction xs with
  | nil =>
    rcases hsp : splitOnChar sep rest with _ | ⟨r, rs⟩
    · exact absurd hsp (splitOnChar_ne_nil sep rest)
    · simp [splitOnChar, hsp]
  | cons c cs ih =>
    have hc : c ≠ sep := fun hc => h (by simp [hc])
    have ih' := ih (fun hmem => h (by simp [hmem]))
    simp [splitOnChar, ih', hc]

theorem digitChar_sep_free (d : Nat) (hd : d < 16) :
    digitChar d ≠ '.' ∧ digitChar d ≠ ':' ∧ digitChar d ≠ '-' ∧
      digitChar d ≠ '+' := by
  interval_cases d <;> exact (by decide)

theorem toBase_no_dot {b : Nat} (hb : 2 ≤ b) (hb16 : b ≤ 16) (n : Nat) :
    '.' ∉ toBase b n := by
  intro hin
  obtain ⟨d, hd, hdc⟩ := toBase_chars hb n '.' hin
  exact (digitChar_sep_free d (lt_of_lt_of_le hd hb16)).1 hdc.symm

/-- IPv4 leg of the round trip. -/
theorem ipv4_round (a : IPv4) (h0 : a.o0 < 256) (h1 : a.o1 < 256)
    (h2 : a.o2 < 256) (h3 : a.o3 < 256) :
    ipv4.from_string (ipv4.to_string a) = .ok a := by
  obtain ⟨o0, o1, o2, o3⟩ := a
  have hnd : ∀ n : Nat, '.' ∉ toBase 10 n := fun n =>
    toBase_no_dot (by norm_num) (by norm_num) n
  have hsp : splitOnChar '.' (ipv4.to_string ⟨o0, o1, o2, o3⟩)
      = [toBase 10 o0, toBase 10 o1, toBase 10 o2, toBase 10 o3] := by
    show splitOnChar '.' (toBase 10 o0 ++ '.' :: toBase 10 o1
      ++ '.' :: toBase 10 o2 ++ '.' :: toBase 10 o3) = _
    simp only [List.cons_append, List.append_assoc]
    rw [splitOnChar_append '.' _ _ (hnd o0),
      splitOnChar_append '.' _ _ (hnd o1),
      splitOnChar_append '.' _ _ (hnd o2),
      splitOnChar_no_sep '.' _ (hnd o3)]
  simp [ipv4.from_string, hsp, u8FromStr_toBase o0 h0, u8FromStr_toBase o1 h1,
    u8FromStr_toBase o2 h2, u8FromStr_toBase o3 h3]

theorem utf8Length_append (l1 l2 : List Char) :
    utf8Length (l1 ++ l2) = utf8Length l1 + utf8Length l2 := by
  simp [utf8Length]

theorem hex02_chars (n : Nat) (hn : n < 256) :
    ∀ c ∈ mac.hex02 n, ∃ d, d < 16 ∧ c = digitChar d := by
  intro c hc
  unfold mac.hex02 at hc
  by_cases h : n < 16
  · rw [if_pos h] at hc
    rcases List.mem_cons.mp hc with hc0 | hc'
    · exact ⟨0, by norm_num, by rw [hc0]; rfl⟩
    · exact toBase_chars (by norm_num) n c hc'
  · rw [if_neg h] at hc
    exact toBase_chars (by norm_num) n c hc

theorem hex02_length (n : Nat) (hn : n < 256) : (mac.hex02 n).length = 2 := by
  unfold mac.hex02
  by_cases h : n < 16
  · rw [if_pos h, toBase_lt h]
    rfl
  · rw [if_neg h, toBase_ge (by norm_num) (by omega),
      toBase_lt (show n / 16 < 16 by omega)]
    rfl

/-- The digit loop over a 02x-printed byte shifts it into the
accumulator. -/
theorem hex02_accum (n : Nat) (hn : n < 256) (cap acc : Nat)
    (hcap : acc * 256 + n ≤ cap) :
    radixAccum 16 cap (mac.hex02 n) acc = some (acc * 256 + n) := by
  unfold mac.hex02
  by_cases h : n < 16
  · rw [if_pos h]
    have hL : (toBase 16 n).length = 1 := by rw [toBase_lt h]; rfl
    have hstep : toDigit 16 '0' = some 0 := by decide
    have hle : acc * 16 + 0 ≤ cap := by omega
    show radixAccum 16 cap ('0' :: toBase 16 n) acc = _
    simp only [radixAccum, hstep, if_pos hle]
    have hb2 : (acc * 16 + 0) * 16 ^ (toBase 16 n).length + n ≤ cap := by
      rw [hL, pow_one]
      omega
    rw [radixAccum_toBase (by norm_num) hdig16 n cap (acc * 16 + 0) hb2]
    congr 1
    rw [hL, pow_one]
    omega
  · rw [if_neg h]
    have hL : (toBase 16 n).length = 2 := by
      rw [toBase_ge (by norm_num) (by omega),
        toBase_lt (show n / 16 < 16 by omega)]
      rfl
    have hb2 : acc * 16 ^ (toBase 16 n).length + n ≤ cap := by
      rw [hL]
      norm_num
      omega
    rw [radixAccum_toBase (by norm_num) hdig16 n cap acc hb2]
    congr 1
    rw [hL]
    norm_num

theorem fold256_mono :
    ∀ (bs : List Nat) (a : Nat), a ≤ bs.foldl (fun x y => x * 256 + y) a := by
  intro bs
  induction bs with
  | nil => intro a; simp
  | cons b bs ih =>
    intro a
    calc a ≤ a * 256 + b := by omega
      _ ≤ _ := ih (a * 256 + b)

/-- The digit loop over a run of 02x-printed bytes folds them in
big-endian order. -/
theorem accum_blocks :
    ∀ (blocks : List Nat) (cap acc : Nat),
      (∀ x ∈ blocks, x < 256) →
      blocks.foldl (fun a x => a * 256 + x) acc ≤ cap →
      radixAccum 16 cap (blocks.foldr (fun x r => mac.hex02 x ++ r) []) acc =
        some (blocks.foldl (fun a x => a * 256 + x) acc) := by
  intro blocks
  induction blocks with
  | nil => intro cap acc _ _; rfl
  | cons b bs ih =>
    intro cap acc hx hcap
    show radixAccum 16 cap
      (mac.hex02 b ++ bs.foldr (fun x r => mac.hex02 x ++ r) []) acc = _
    rw [radixAccum_append]
    have hcap' : List.foldl (fun a x => a * 256 + x) (acc * 256 + b) bs ≤ cap :=
      hcap
    rw [hex02_accum b (hx b (by simp)) cap acc
      (le_trans (fold256_mono bs (acc * 256 + b)) hcap')]
    simp only [Option.some_bind]
    exact ih cap (acc * 256 + b) (fun x hx' => hx x (by simp [hx'])) hcap'

theorem filter_hex02 (n : Nat) (hn : n < 256) :
    (mac.hex02 n).filter (fun c => ¬(c = ':' ∨ c = '-' ∨ c = '.'))
      = mac.hex02 n := by
  rw [List.filter_eq_self]
  intro c hc
  obtain ⟨d, hd, rfl⟩ := hex02_chars n hn c hc
  have h := digitChar_sep_free d hd
  simp [h.2.1, h.2.2.1, h.1]

theorem utf8_hex02 (n : Nat) (hn : n < 256) : utf8Length (mac.hex02 n) = 2 := by
  obtain ⟨a, b, hab⟩ := List.length_eq_two.mp (hex02_length n hn)
  obtain ⟨d1, hd1, ha⟩ := hex02_chars n hn a (by rw [hab]; simp)
  obtain ⟨d2, hd2, hb⟩ := hex02_chars n hn b (by rw [hab]; simp)
  subst ha hb
  rw [hab]
  have e1 : Char.utf8Size (digitChar d1) = 1 := by
    interval_cases d1 <;> decide
  have e2 : Char.utf8Size (digitChar d2) = 1 := by
    interval_cases d2 <;> decide
  simp [utf8Length, e1, e2]

/-- MAC leg of the round trip. -/
theorem mac_round (m : MacAddress) (hm : m.val < 2 ^ 48) :
    mac.parse (mac.to_string m) = .ok m := by
  obtain ⟨v⟩ := m
  simp only at hm
  have e5 : v >>> 40 &&& 255 = v / 2 ^ 40 % 256 := by
    rw [shr_eq_div, and_255_eq_mod]
  have e4 : v >>> 32 &&& 255 = v / 2 ^ 32 % 256 := by
    rw [shr_eq_div, and_255_eq_mod]
  have e3 : v >>> 24 &&& 255 = v / 2 ^ 24 % 256 := by
    rw [shr_eq_div, and_255_eq_mod]
  have e2 : v >>> 16 &&& 255 = v / 2 ^ 16 % 256 := by
    rw [shr_eq_div, and_255_eq_mod]
  have e1 : v >>> 8 &&& 255 = v / 2 ^ 8 % 256 := by
    rw [shr_eq_div, and_255_eq_mod]
  have e0 : v &&& 255 = v % 256 := and_255_eq_mod v
  have hB5 : v / 2 ^ 40 % 256 < 256 := Nat.mod_lt _ (by norm_num)
  have hB4 : v / 2 ^ 32 % 256 < 256 := Nat.mod_lt _ (by norm_num)
  have hB3 : v / 2 ^ 24 % 256 < 256 := Nat.mod_lt _ (by norm_num)
  have hB2 : v / 2 ^ 16 % 256 < 256 := Nat.mod_lt _ (by norm_num)
  have hB1 : v / 2 ^ 8 % 256 < 256 := Nat.mod_lt _ (by norm_num)
  have hB0 : v % 256 < 256 := Nat.mod_lt _ (by norm_num)
  have hnorm : (mac.to_string ⟨v⟩).filter
        (fun c => ¬(c = ':' ∨ c = '-' ∨ c = '.'))
      = [v / 2 ^ 40 % 256, v / 2 ^ 32 % 256, v / 2 ^ 24 % 256,
          v / 2 ^ 16 % 256, v / 2 ^ 8 % 256, v % 256].foldr
          (fun x r => mac.hex02 x ++ r) [] := by
    show (mac.hex02 (v >>> 40 &&& 255) ++ ':' :: mac.hex02 (v >>> 32 &&& 255)
        ++ ':' :: mac.hex02 (v >>> 24 &&& 255)
        ++ ':' :: mac.hex02 (v >>> 16 &&& 255)
        ++ ':' :: mac.hex02 (v >>> 8 &&& 255)
        ++ ':' :: mac.hex02 (v &&& 255)).filter
        (fun c => ¬(c = ':' ∨ c = '-' ∨ c = '.')) = _
    rw [e5, e4, e3, e2, e1, e0]
    simp only [List.filter_append, List.filter_cons, List.append_assoc]
    rw [filter_hex02 _ hB5, filter_hex02 _ hB4, filter_hex02 _ hB3,
      filter_hex02 _ hB2, filter_hex02 _ hB1, filter_hex02 _ hB0]
    norm_num
  have hlen12 : utf8Length ((mac.to_string ⟨v⟩).filter
      (fun c => ¬(c = ':' ∨ c = '-' ∨ c = '.'))) = 12 := by
    rw [hnorm]
    show utf8Length (mac.hex02 (v / 2 ^ 40 % 256) ++ (mac.hex02 (v / 2 ^ 32 % 256)
      ++ (mac.hex02 (v / 2 ^ 24 % 256) ++ (mac.hex02 (v / 2 ^ 16 % 256)
      ++ (mac.hex02 (v / 2 ^ 8 % 256) ++ (mac.hex02 (v % 256) ++ [])))))) = 12
    simp only [utf8Length_append, List.append_nil]
    rw [utf8_hex02 _ hB5, utf8_hex02 _ hB4, utf8_hex02 _ hB3,
      utf8_hex02 _ hB2, utf8_hex02 _ hB1, utf8_hex02 _ hB0]
  have hfold : [v / 2 ^ 40 % 256, v / 2 ^ 32 % 256, v / 2 ^ 24 % 256,
      v / 2 ^ 16 % 256, v / 2 ^ 8 % 256, v % 256].foldl
      (fun a x => a * 256 + x) 0 = v := by
    show ((((((0 * 256 + v / 2 ^ 40 % 256) * 256 + v / 2 ^ 32 % 256) * 256
      + v / 2 ^ 24 % 256) * 256 + v / 2 ^ 16 % 256) * 256 + v / 2 ^ 8 % 256)
      * 256 + v % 256) = v
    omega
  have haccum := accum_blocks [v / 2 ^ 40 % 256, v / 2 ^ 32 % 256,
      v / 2 ^ 24 % 256, v / 2 ^ 16 % 256, v / 2 ^ 8 % 256, v % 256]
      (2 ^ 64 - 1) 0
      (by intro x hx
          simp only [List.mem_cons, List.not_mem_nil, or_false] at hx
          rcases hx with rfl | rfl | rfl | rfl | rfl | rfl
          · exact hB5
          · exact hB4
          · exact hB3
          · exact hB2
          · exact hB1
          · exact hB0)
      (by rw [hfold]; omega)
  rw [hfold] at haccum
  have hrx : fromStrRadix16U64 ((mac.to_string ⟨v⟩).filter
      (fun c => ¬(c = ':' ∨ c = '-' ∨ c = '.'))) = some v := by
    rw [hnorm]
    rcases hsh : [v / 2 ^ 40 % 256, v / 2 ^ 32 % 256, v / 2 ^ 24 % 256,
        v / 2 ^ 16 % 256, v / 2 ^ 8 % 256, v % 256].foldr
        (fun x r => mac.hex02 x ++ r) [] with _ | ⟨c, cs⟩
    · have h2 : (mac.hex02 (v / 2 ^ 40 % 256)).length = 2 := hex02_length _ hB5
      have : mac.hex02 (v / 2 ^ 40 % 256) ++ _ = ([] : List Char) := hsh
      rcases hx : mac.hex02 (v / 2 ^ 40 % 256) with _ | ⟨y, ys⟩
      · rw [hx] at h2
        simp at h2
      · rw [hx] at this
        simp at this
    · have hc : c ≠ '+' := by
        have hmem : c ∈ mac.hex02 (v / 2 ^ 40 % 256) := by
          have h2 : (mac.hex02 (v / 2 ^ 40 % 256)).length = 2 :=
            hex02_length _ hB5
          obtain ⟨y, z, hyz⟩ := List.length_eq_two.mp h2
          have : mac.hex02 (v / 2 ^ 40 % 256) ++ _ = c :: cs := hsh
          rw [hyz] at this
          have hy : y = c := by
            have := congrArg (List.head? ·) this
            simpa using this
          rw [hyz, hy]
          simp
        obtain ⟨d, hd, rfl⟩ := hex02_chars _ hB5 c hmem
        exact (digitChar_sep_free d hd).2.2.2
      rw [hsh] at haccum
      unfold fromStrRadix16U64
      split
      · next rest heq =>
          exact absurd (List.head_eq_of_cons_eq heq.symm) fun h => hc h.symm
      · next =>
          simp only [List.isEmpty_cons, Bool.false_eq_true, if_false]
          exact haccum
  unfold mac.parse
  rw [if_neg (by rw [hlen12]; omega)]
  rw [hrx]

/-- One formatting step never reads the output accumulated so far. -/
theorem ipv6.scanStep_split (st : ScanState) (r : List Char) (s : Nat) :
    scanStep (st, r) s = ((scanStep (st, []) s).1, r ++ (scanStep (st, []) s).2) := by
  cases st <;> cases s <;> simp [scanStep]

/-- The formatting fold writes left to right: the output is the prior
output followed by what the fold emits from an empty accumulator. -/
theorem ipv6.scan_out :
    ∀ (ss : List Nat) (st : ScanState) (r : List Char),
      ss.foldl scanStep (st, r)
        = ((ss.foldl scanStep (st, [])).1, r ++ (ss.foldl scanStep (st, [])).2) := by
  intro ss
  induction ss with
  | nil => intro st r; simp
  | cons s ss ih =>
    intro st r
    show List.foldl scanStep (scanStep (st, r) s) ss
      = ((List.foldl scanStep (scanStep (st, []) s) ss).1,
          r ++ (List.foldl scanStep (scanStep (st, []) s) ss).2)
    rw [scanStep_split st r s]
    rw [ih (scanStep (st, []) s).1 (r ++ (scanStep (st, []) s).2)]
    rw [show List.foldl scanStep (scanStep (st, []) s) ss
        = List.foldl scanStep ((scanStep (st, []) s).1, (scanStep (st, []) s).2) ss
      from rfl]
    rw [ih (scanStep (st, []) s).1 (scanStep (st, []) s).2]
    simp [List.append_assoc]

/-- In HeadBody, each nonzero group appends ":" and its hex digits. -/
theorem ipv6.scan_headbody :
    ∀ (A : List Nat) (r : List Char), (∀ a ∈ A, a ≠ 0) →
      A.foldl scanStep (.HeadBody, r) = (.HeadBody, r ++ sepPrint true A) := by
  intro A
  induction A with
  | nil => intro r _; simp [sepPrint]
  | cons a A ih =>
    intro r hA
    obtain ⟨k, hk⟩ := Nat.exists_eq_succ_of_ne_zero (hA a (by simp))
    subst hk
    show List.foldl scanStep (.HeadBody, r ++ ':' :: toBase 16 (k + 1)) A = _
    rw [ih _ (fun x hx => hA x (by simp [hx]))]
    simp [sepPrint, List.append_assoc]

/-- A nonzero run from the Head state prints the first group bare and
the rest colon-prefixed. -/
theorem ipv6.scan_head_cons :
    ∀ (a : Nat) (A : List Nat) (r : List Char), a ≠ 0 → (∀ x ∈ A, x ≠ 0) →
      (a :: A).foldl scanStep (.Head, r)
        = (.HeadBody, r ++ sepPrint false (a :: A)) := by
  intro a A r ha hA
  obtain ⟨k, hk⟩ := Nat.exists_eq_succ_of_ne_zero ha
  subst hk
  show List.foldl scanStep (.HeadBody, r ++ toBase 16 (k + 1)) A = _
  rw [scan_headbody A _ hA]
  simp [sepPrint, List.append_assoc]

/-- Zero groups inside the compressed run print nothing. -/
theorem ipv6.scan_tail_zeros :
    ∀ (Z : List Nat) (r : List Char), (∀ z ∈ Z, z = 0) →
      Z.foldl scanStep (.Tail, r) = (.Tail, r) := by
  intro Z
  induction Z with
  | nil => intro r _; rfl
  | cons z Z ih =>
    intro r hZ
    have hz : z = 0 := hZ z (by simp)
    subst hz
    show List.foldl scanStep (.Tail, r) Z = _
    exact ih r (fun x hx => hZ x (by simp [hx]))

/-- In TailBody every group, zero included, appends ":" and its hex. -/
theorem ipv6.scan_tailbody :
    ∀ (B : List Nat) (r : List Char),
      B.foldl scanStep (.TailBody, r) = (.TailBody, r ++ sepPrint true B) := by
  intro B
  induction B with
  | nil => intro r; simp [sepPrint]
  | cons b B ih =>
    intro r
    have hstep : scanStep (.TailBody, r) b = (.TailBody, r ++ ':' :: toBase 16 b) := by
      cases b <;> rfl
    show List.foldl scanStep (scanStep (.TailBody, r) b) B = _
    rw [hstep, ih]
    simp [sepPrint, List.append_assoc]

/-- After the "::", a nonzero group leaves Tail for TailBody. -/
theorem ipv6.scan_tail_cons :
    ∀ (b : Nat) (B : List Nat) (r : List Char), b ≠ 0 →
      (b :: B).foldl scanStep (.Tail, r)
        = (.TailBody, r ++ sepPrint false (b :: B)) := by
  intro b B r hb
  obtain ⟨k, hk⟩ := Nat.exists_eq_succ_of_ne_zero hb
  subst hk
  show List.foldl scanStep (.TailBody, r ++ toBase 16 (k + 1)) B = _
  rw [scan_tailbody]
  simp [sepPrint, List.append_assoc]

/-- Output of the whole compressed-run-and-tail phase. -/
theorem ipv6.scan_tail_phase :
    ∀ (Z B : List Nat) (r : List Char), (∀ z ∈ Z, z = 0) →
      (B = [] ∨ ∃ b B', B = b :: B' ∧ b ≠ 0) →
      ((Z ++ B).foldl scanStep (.Tail, r)).2 = r ++ sepPrint false B := by
  intro Z B r hZ hB
  rw [List.foldl_append, scan_tail_zeros Z r hZ]
  rcases hB with rfl | ⟨b, B', rfl, hb⟩
  · simp [sepPrint]
  · rw [scan_tail_cons b B' r hb]

theorem dropWhile_head_false {α : Type} (p : α → Bool) :
    ∀ (l : List α) (x : α) (xs : List α), l.dropWhile p = x :: xs → p x = false := by
  intro l
  induction l with
  | nil => intro x xs h; simp [List.dropWhile] at h
  | cons a l ih =>
    intro x xs h
    rw [List.dropWhile_cons] at h
    by_cases ha : p a = true
    · rw [if_pos ha] at h
      exact ih x xs h
    · rw [if_neg ha] at h
      injection h with h1 h2
      rw [← h1]
      cases hpa : p a
      · rfl
      · exact absurd hpa ha

/-- The four-state scan of ipv6::to_string produces exactly the
first-zero-run-compressed colon-hex format. -/
theorem ipv6.scan_eq_runFormat (ss : List Nat) :
    (ss.foldl scanStep (.Head, [])).2 = runFormat ss := by
  unfold runFormat
  by_cases h0 : (0 : Nat) ∈ ss
  case neg =>
    rw [if_neg h0]
    rcases ss with _ | ⟨a, A⟩
    · rfl
    · have ha : a ≠ 0 := fun h => h0 (by simp [h])
      have hA : ∀ x ∈ A, x ≠ 0 := fun x hx hxx =>
        h0 (List.mem_cons_of_mem a (hxx ▸ hx))
      rw [scan_head_cons a A [] ha hA]
      simp
  case pos =>
    rw [if_pos h0]
    have hsplit : ss.takeWhile (· ≠ 0) ++ ss.dropWhile (· ≠ 0) = ss :=
      List.takeWhile_append_dropWhile _ _
    rcases hW : ss.dropWhile (· ≠ 0) with _ | ⟨w, W'⟩
    · exfalso
      have hta : ss.takeWhile (· ≠ 0) = ss := by
        rw [hW, List.append_nil] at hsplit
        exact hsplit
      have h0' : (0 : Nat) ∈ ss.takeWhile (· ≠ 0) := by
        rw [hta]; exact h0
      have := List.mem_takeWhile_imp h0'
      simp at this
    · have hw0 : w = 0 := by
        have hfalse := dropWhile_head_false _ ss w W' hW
        simpa using hfalse
      subst hw0
      have hssEq : ss = ss.takeWhile (· ≠ 0) ++ 0 :: W' := by
        rw [← hW, hsplit]
      have hW'split : W'.takeWhile (· = 0) ++ W'.dropWhile (· = 0) = W' :=
        List.takeWhile_append_dropWhile _ _
      -- the parse of the middle run
      have hZ : ∀ z ∈ W'.takeWhile (· = 0), z = 0 := by
        intro z hz
        have := List.mem_takeWhile_imp hz
        simpa using this
      -- evaluate the fold over the decomposition
      conv_lhs => rw [hssEq, ← hW'split]
      rw [hW, List.dropWhile_cons, if_pos (by simp)]
      rw [List.foldl_append]
      have hAmem : ∀ x ∈ ss.takeWhile (· ≠ 0), x ≠ 0 := by
        intro x hx
        have := List.mem_takeWhile_imp hx
        simpa using this
      have hBshape : W'.dropWhile (· = 0) = []
          ∨ ∃ b B', W'.dropWhile (· = 0) = b :: B' ∧ b ≠ 0 := by
        rcases hB : W'.dropWhile (· = 0) with _ | ⟨b, B'⟩
        · exact Or.inl hB
        · refine Or.inr ⟨b, B', hB, ?_⟩
          have := dropWhile_head_false _ W' b B' hB
          simpa using this
      rcases hA : ss.takeWhile (· ≠ 0) with _ | ⟨a, A'⟩
      · rw [hA]
        show ((0 :: (W'.takeWhile (· = 0) ++ W'.dropWhile (· = 0))).foldl
          scanStep (ScanState.Head, [])).2 = _
        show ((W'.takeWhile (· = 0) ++ W'.dropWhile (· = 0)).foldl
          scanStep (ScanState.Tail, [':', ':'])).2 = _
        rw [scan_tail_phase _ _ _ hZ hBshape]
        simp [sepPrint]
      · have hane : a ≠ 0 := hAmem a (by rw [hA]; simp)
        have hA'ne : ∀ x ∈ A', x ≠ 0 := fun x hx =>
          hAmem x (by rw [hA]; simp [hx])
        rw [hA, scan_head_cons a A' [] hane hA'ne]
        show ((W'.takeWhile (· = 0) ++ W'.dropWhile (· = 0)).foldl scanStep
          (ScanState.Tail, ([] ++ sepPrint false (a :: A')) ++ [':', ':'])).2 = _
        rw [scan_tail_phase _ _ _ hZ hBshape]
        simp [List.append_assoc]

/-- The embedded-IPv4 parse fails when the input does not open with a
decimal digit. -/
theorem ipv6.readIpv4_noDigit (s : List Char) (h : noDigitStart 10 s = true) :
    readIpv4 s = none := by
  unfold readIpv4
  rw [readNumber_none 10 3 255 false s h]

/-- The embedded-IPv4 parse over a printed dotted-decimal quad. -/
theorem ipv6.readIpv4_printed (x0 x1 x2 x3 : Nat)
    (h0 : x0 < 256) (h1 : x1 < 256) (h2 : x2 < 256) (h3 : x3 < 256) :
    readIpv4 (toBase 10 x0 ++ '.' :: (toBase 10 x1 ++ '.' :: (toBase 10 x2
      ++ '.' :: toBase 10 x3))) = some ((x0, x1, x2, x3), []) := by
  have hdot : ∀ (l : List Char), noDigitStart 10 ('.' :: l) = true := fun l => rfl
  have h3' : readNumber 10 3 255 false (toBase 10 x3) = some (x3, []) := by
    have := readNumber10_toBase x3 [] h3 rfl
    rwa [List.append_nil] at this
  simp only [ipv6.readIpv4,
    readNumber10_toBase x0 _ h0 (hdot _),
    readNumber10_toBase x1 _ h1 (hdot _),
    readNumber10_toBase x2 _ h2 (hdot _), h3']

/-- Big-endian byte split of a packed 16-bit word. -/
theorem word_bytes (hi lo : Nat) (hh : hi < 256) (hl : lo < 256) :
    (((hi <<< 8) ||| lo) >>> 8) &&& 255 = hi ∧
      ((hi <<< 8) ||| lo) &&& 255 = lo := by
  rw [shl_or_eq_add (k := 8) hi lo (by omega), shr_eq_div, and_255_eq_mod,
    and_255_eq_mod]
  constructor
  · show (hi * 2 ^ 8 + lo) / 2 ^ 8 % 256 = hi
    omega
  · omega

/-- from_segments inverts to_segments on even-length byte lists. -/
theorem ipv6.seg_bytes_inv :
    ∀ (bs : List Nat), (∀ b ∈ bs, b < 256) → bs.length % 2 = 0 →
      segments_to_bytes (to_segments bs) = bs
  | [], _, _ => rfl
  | [b], _, he => absurd he (by simp)
  | b1 :: b2 :: rest, hb, he => by
    have ih := ipv6.seg_bytes_inv rest
      (fun b hb' => hb b (by simp [hb']))
      (by simp only [List.length_cons] at he; omega)
    show ((((b1 <<< 8) ||| b2) >>> 8) &&& 0xFF)
        :: (((b1 <<< 8) ||| b2) &&& 0xFF) :: segments_to_bytes (to_segments rest)
      = b1 :: b2 :: rest
    rw [ih, (word_bytes b1 b2 (hb b1 (by simp)) (hb b2 (by simp))).1,
      (word_bytes b1 b2 (hb b1 (by simp)) (hb b2 (by simp))).2]

theorem ipv6.to_segments_length :
    ∀ (bs : List Nat), (to_segments bs).length = bs.length / 2
  | [] => rfl
  | [b] => by
    show ([] : List Nat).length = [b].length / 2
    simp
  | b1 :: b2 :: rest => by
    show (to_segments rest).length + 1 = (rest.length + 2) / 2
    rw [ipv6.to_segments_length rest]
    omega

theorem ipv6.to_segments_lt :
    ∀ (bs : List Nat), (∀ b ∈ bs, b < 256) →
      ∀ g ∈ to_segments bs, g < 65536
  | [], _, g, hg => absurd hg (by simp [to_segments])
  | [b], _, g, hg => absurd hg (by simp [to_segments])
  | b1 :: b2 :: rest, hb, g, hg => by
    rcases List.mem_cons.mp hg with hg0 | hg'
    · subst hg0
      rw [shl_or_eq_add (k := 8) b1 b2 (by exact hb b2 (by simp))]
      have := hb b1 (by simp)
      have := hb b2 (by simp)
      omega
    · exact ipv6.to_segments_lt rest (fun b hb' => hb b (by simp [hb'])) g hg'

/-- read_ipv6_addr when the head run already has eight groups. -/
theorem ipv6.readIpv6Groups_full (s : List Char) (head : List Nat)
    (b : Bool) (rest : List Char)
    (h : readGroups 8 0 s = (head, b, rest)) (hl : head.length = 8) :
    readIpv6Groups s = some (head, rest) := by
  simp [readIpv6Groups, h, hl]

/-- read_ipv6_addr when the head run stops at "::" and a tail run
follows: the middle is zero-filled. -/
theorem ipv6.readIpv6Groups_split (s : List Char) (head : List Nat)
    (rest rest2 : List Char)
    (h : readGroups 8 0 s = (head, false, rest)) (hne : head.length ≠ 8)
    (hr : rest = ':' :: ':' :: rest2)
    (tail : List Nat) (tb : Bool) (rest3 : List Char)
    (h2 : readGroups (8 - (head.length + 1)) 0 rest2 = (tail, tb, rest3)) :
    readIpv6Groups s
      = some (head ++ List.replicate (8 - head.length - tail.length) 0 ++ tail,
          rest3) := by
  have h2' : readGroups (7 - head.length) 0 rest2 = (tail, tb, rest3) := by
    rw [show 7 - head.length = 8 - (head.length + 1) from by omega]
    exact h2
  simp [readIpv6Groups, h, hne, hr, h2, h2']

/-- str::parse of a fully consumed address returns the sixteen octets. -/
theorem ipv6.stdParseIpv6_of_groups (s : List Char) (gs : List Nat)
    (h : readIpv6Groups s = some (gs, [])) :
    stdParseIpv6 s = some (segments_to_bytes gs) := by
  unfold stdParseIpv6
  rw [h]

/-- Parsing the compressed colon-hex print of eight groups recovers
their sixteen octets. -/
theorem stdParseIpv6_runFormat (ss : List Nat) (hlen : ss.length = 8)
    (hss : ∀ g ∈ ss, g < 65536) :
    ipv6.stdParseIpv6 (runFormat ss) = some (ipv6.segments_to_bytes ss) := by
  unfold runFormat
  by_cases h0 : (0 : Nat) ∈ ss
  case neg =>
    rw [if_neg h0]
    have hg := readGroups_printed ss 0 8 [] hss (by omega) (by simp)
      (Or.inl rfl)
    rw [show (decide ((0 : Nat) < 0)) = false from rfl] at hg
    rw [List.append_nil] at hg
    exact ipv6.stdParseIpv6_of_groups _ _
      (ipv6.readIpv6Groups_full _ ss false [] hg hlen)
  case pos =>
    rw [if_pos h0]
    have hsplit : ss.takeWhile (· ≠ 0) ++ ss.dropWhile (· ≠ 0) = ss :=
      List.takeWhile_append_dropWhile _ _
    rcases hW : ss.dropWhile (· ≠ 0) with _ | ⟨w, W'⟩
    · exfalso
      have hta : ss.takeWhile (· ≠ 0) = ss := by
        rw [hW, List.append_nil] at hsplit
        exact hsplit
      have h0' : (0 : Nat) ∈ ss.takeWhile (· ≠ 0) := by
        rw [hta]; exact h0
      have := List.mem_takeWhile_imp h0'
      simp at this
    · have hw0 : w = 0 := by
        have hfalse := dropWhile_head_false _ ss w W' hW
        simpa using hfalse
      subst hw0
      have hssEq : ss = ss.takeWhile (· ≠ 0) ++ 0 :: W' := by
        rw [← hW, hsplit]
      have hW'split : W'.takeWhile (· = 0) ++ W'.dropWhile (· = 0) = W' :=
        List.takeWhile_append_dropWhile _ _
      have hZ : ∀ z ∈ W'.takeWhile (· = 0), z = 0 := by
        intro z hz
        have := List.mem_takeWhile_imp hz
        simpa using this
      have hZrep : W'.takeWhile (· = 0)
          = List.replicate (W'.takeWhile (· = 0)).length 0 :=
        List.eq_replicate_of_mem hZ
      have hAmem : ∀ x ∈ ss.takeWhile (· ≠ 0), x < 65536 := fun x hx =>
        hss x (List.IsPrefix.subset (List.takeWhile_prefix _) hx)
      have hBmem : ∀ x ∈ W'.dropWhile (· = 0), x < 65536 := by
        intro x hx
        have hx1 : x ∈ W' := List.Sublist.subset (List.dropWhile_sublist _) hx
        have hx2 : x ∈ ss.dropWhile (· ≠ 0) := by
          rw [hW]
          exact List.mem_cons_of_mem 0 hx1
        exact hss x (List.Sublist.subset (List.dropWhile_sublist _) hx2)
      have hlens : (ss.takeWhile (· ≠ 0)).length + 1
          + ((W'.takeWhile (· = 0)).length + (W'.dropWhile (· = 0)).length)
          = 8 := by
        have h1 := congrArg List.length hssEq
        rw [hlen, List.length_append, List.length_cons] at h1
        have h2 := congrArg List.length hW'split
        rw [List.length_append] at h2
        omega
      have hdotB : '.' ∉ (':' :: ':' :: sepPrint false (W'.dropWhile (· = 0))) := by
        intro hin
        rcases List.mem_cons.mp hin with h | hin'
        · exact absurd h (by decide)
        · rcases List.mem_cons.mp hin' with h | hin''
          · exact absurd h (by decide)
          · exact sepPrint_no_dot _ _ hin''
      have hg1 := readGroups_printed (ss.takeWhile (· ≠ 0)) 0 8
        (':' :: ':' :: sepPrint false (W'.dropWhile (· = 0)))
        hAmem (by omega) hdotB
        (Or.inr ⟨sepPrint false (W'.dropWhile (· = 0)), rfl⟩)
      rw [show (decide ((0 : Nat) < 0)) = false from rfl] at hg1
      have hg2 := readGroups_printed (W'.dropWhile (· = 0)) 0
        (8 - ((ss.takeWhile (· ≠ 0)).length + 1)) []
        hBmem (by omega) (by simp) (Or.inl rfl)
      rw [show (decide ((0 : Nat) < 0)) = false from rfl] at hg2
      rw [List.append_nil] at hg2
      have hkey := ipv6.readIpv6Groups_split
        (sepPrint false (ss.takeWhile (· ≠ 0))
          ++ (':' :: ':' :: sepPrint false (W'.dropWhile (· = 0))))
        (ss.takeWhile (· ≠ 0))
        (':' :: ':' :: sepPrint false (W'.dropWhile (· = 0)))
        (sepPrint false (W'.dropWhile (· = 0)))
        hg1 (by omega) rfl
        (W'.dropWhile (· = 0)) false [] hg2
      have hgroups : ss.takeWhile (· ≠ 0)
          ++ List.replicate (8 - (ss.takeWhile (· ≠ 0)).length
              - (W'.dropWhile (· = 0)).length) 0
          ++ W'.dropWhile (· = 0) = ss := by
        have h85 : 8 - (ss.takeWhile (· ≠ 0)).length
            - (W'.dropWhile (· = 0)).length
            = (W'.takeWhile (· = 0)).length + 1 := by omega
        rw [h85]
        conv_rhs => rw [hssEq, ← hW'split]
        rw [List.replicate_succ, ← hZrep]
        simp [List.append_assoc]
      rw [hgroups] at hkey
      have hfin := ipv6.stdParseIpv6_of_groups _ _ hkey
      rw [hW, List.dropWhile_cons, if_pos (by simp)]
      rw [show sepPrint false (ss.takeWhile (· ≠ 0)) ++ [':', ':']
            ++ sepPrint false (W'.dropWhile (· = 0))
          = sepPrint false (ss.takeWhile (· ≠ 0))
            ++ (':' :: ':' :: sepPrint false (W'.dropWhile (· = 0)))
        from by simp]
      exact hfin

/-- The group reader stops immediately at a leading colon. -/
theorem ipv6.readGroups_stop_colon (limit : Nat) (r : List Char) :
    readGroups limit 0 (':' :: r) = ([], false, ':' :: r) := by
  rw [readGroups]
  by_cases h : 0 < limit
  · rw [dif_pos h]
    have hip : (if 0 + 1 < limit then readSepIpv4 0 (':' :: r) else none)
        = none := by
      by_cases h2 : 0 + 1 < limit
      · rw [if_pos h2]
        unfold readSepIpv4
        rw [if_neg (by omega)]
        exact readIpv4_noDigit _ rfl
      · rw [if_neg h2]
    rw [hip]
    have hsn : readSepNum 0 (':' :: r) = none := by
      unfold readSepNum
      rw [if_neg (by omega)]
      exact readNumber_none 16 4 65535 true _ rfl
    rw [hsn]
  · rw [dif_neg h]

/-- std parse of "::ffff:" followed by a printed dotted-decimal quad:
the IPv4-mapped sixteen octets. -/
theorem stdParseIpv6_mapped (x0 x1 x2 x3 : Nat)
    (h0 : x0 < 256) (h1 : x1 < 256) (h2 : x2 < 256) (h3 : x3 < 256) :
    ipv6.stdParseIpv6 ([':', ':', 'f', 'f', 'f', 'f', ':']
        ++ toBase 10 x0 ++ '.' :: toBase 10 x1 ++ '.' :: toBase 10 x2
        ++ '.' :: toBase 10 x3)
      = some [0, 0, 0, 0, 0, 0, 0, 0, 0, 0, 0xff, 0xff, x0, x1, x2, x3] := by
  have hff : toBase 16 65535 = ['f', 'f', 'f', 'f'] := by
    rw [toBase]; norm_num
    rw [toBase]; norm_num
    rw [toBase]; norm_num
    rw [toBase]; norm_num
    decide
  have hshape : [':', ':', 'f', 'f', 'f', 'f', ':']
        ++ toBase 10 x0 ++ '.' :: toBase 10 x1 ++ '.' :: toBase 10 x2
        ++ '.' :: toBase 10 x3
      = ':' :: ':' :: ('f' :: 'f' :: 'f' :: 'f' :: ':'
          :: (toBase 10 x0 ++ '.' :: (toBase 10 x1 ++ '.' :: (toBase 10 x2
              ++ '.' :: toBase 10 x3)))) := by
    simp
  rw [hshape]
  have hB : ipv6.readGroups 7 0 ('f' :: 'f' :: 'f' :: 'f' :: ':'
      :: (toBase 10 x0 ++ '.' :: (toBase 10 x1 ++ '.' :: (toBase 10 x2
          ++ '.' :: toBase 10 x3))))
      = ([65535, x0 <<< 8 ||| x1, x2 <<< 8 ||| x3], true, []) := by
    rw [ipv6.readGroups, dif_pos (by norm_num : (0 : Nat) < 7)]
    have hip : (if 0 + 1 < 7 then ipv6.readSepIpv4 0 ('f' :: 'f' :: 'f' :: 'f'
        :: ':' :: (toBase 10 x0 ++ '.' :: (toBase 10 x1 ++ '.' :: (toBase 10 x2
            ++ '.' :: toBase 10 x3)))) else none) = none := by
      rw [if_pos (by norm_num)]
      unfold ipv6.readSepIpv4
      rw [if_neg (by omega)]
      exact ipv6.readIpv4_noDigit _ rfl
    rw [hip]
    have hsn : ipv6.readSepNum 0 ('f' :: 'f' :: 'f' :: 'f' :: ':'
        :: (toBase 10 x0 ++ '.' :: (toBase 10 x1 ++ '.' :: (toBase 10 x2
            ++ '.' :: toBase 10 x3))))
        = some (65535, ':' :: (toBase 10 x0 ++ '.' :: (toBase 10 x1
            ++ '.' :: (toBase 10 x2 ++ '.' :: toBase 10 x3)))) := by
      unfold ipv6.readSepNum
      rw [if_neg (by omega)]
      rw [show ('f' :: 'f' :: 'f' :: 'f' :: ':'
          :: (toBase 10 x0 ++ '.' :: (toBase 10 x1 ++ '.' :: (toBase 10 x2
              ++ '.' :: toBase 10 x3))))
        = toBase 16 65535 ++ (':' :: (toBase 10 x0 ++ '.' :: (toBase 10 x1
            ++ '.' :: (toBase 10 x2 ++ '.' :: toBase 10 x3)))) from by
          rw [hff]; rfl]
      exact readNumber16_toBase 65535 _ (by norm_num) rfl
    rw [hsn]
    have hC : ipv6.readGroups 7 1 (':' :: (toBase 10 x0 ++ '.' :: (toBase 10 x1
        ++ '.' :: (toBase 10 x2 ++ '.' :: toBase 10 x3))))
        = ([x0 <<< 8 ||| x1, x2 <<< 8 ||| x3], true, []) := by
      rw [ipv6.readGroups, dif_pos (by norm_num : (1 : Nat) < 7)]
      have hip2 : (if 1 + 1 < 7 then ipv6.readSepIpv4 1 (':' :: (toBase 10 x0
          ++ '.' :: (toBase 10 x1 ++ '.' :: (toBase 10 x2
              ++ '.' :: toBase 10 x3)))) else none)
          = some ((x0, x1, x2, x3), []) := by
        rw [if_pos (by norm_num)]
        unfold ipv6.readSepIpv4
        rw [if_pos (by omega)]
        show ipv6.readIpv4 (toBase 10 x0 ++ '.' :: (toBase 10 x1
            ++ '.' :: (toBase 10 x2 ++ '.' :: toBase 10 x3))) = _
        exact ipv6.readIpv4_printed x0 x1 x2 x3 h0 h1 h2 h3
      rw [hip2]
    simp only [hC]
  have hg1 := ipv6.readGroups_stop_colon 8 (':' :: ('f' :: 'f' :: 'f' :: 'f'
      :: ':' :: (toBase 10 x0 ++ '.' :: (toBase 10 x1 ++ '.' :: (toBase 10 x2
          ++ '.' :: toBase 10 x3)))))
  have hkey := ipv6.readIpv6Groups_split
    (':' :: ':' :: ('f' :: 'f' :: 'f' :: 'f' :: ':'
        :: (toBase 10 x0 ++ '.' :: (toBase 10 x1 ++ '.' :: (toBase 10 x2
            ++ '.' :: toBase 10 x3)))))
    []
    (':' :: ':' :: ('f' :: 'f' :: 'f' :: 'f' :: ':'
        :: (toBase 10 x0 ++ '.' :: (toBase 10 x1 ++ '.' :: (toBase 10 x2
            ++ '.' :: toBase 10 x3)))))
    ('f' :: 'f' :: 'f' :: 'f' :: ':'
        :: (toBase 10 x0 ++ '.' :: (toBase 10 x1 ++ '.' :: (toBase 10 x2
            ++ '.' :: toBase 10 x3))))
    hg1 (by decide) rfl
    [65535, x0 <<< 8 ||| x1, x2 <<< 8 ||| x3] true [] hB
  rw [ipv6.stdParseIpv6_of_groups _ _ hkey]
  congr 1
  show ipv6.segments_to_bytes
      [0, 0, 0, 0, 0, 65535, x0 <<< 8 ||| x1, x2 <<< 8 ||| x3]
    = [0, 0, 0, 0, 0, 0, 0, 0, 0, 0, 0xff, 0xff, x0, x1, x2, x3]
  simp only [ipv6.segments_to_bytes]
  rw [(word_bytes x0 x1 h0 h1).1, (word_bytes x0 x1 h0 h1).2,
    (word_bytes x2 x3 h2 h3).1, (word_bytes x2 x3 h2 h3).2]
  simp only [shr_eq_div, and_255_eq_mod]
  norm_num

/-- IPv6 leg of the round trip. -/
theorem ipv6_round (a : IPv6) (hlen : a.bytes.length = 16)
    (hb : ∀ b ∈ a.bytes, b < 256) :
    ipv6.from_string (ipv6.to_string a) = .ok a := by
  by_cases hmap : ipv6.is_ipv4_mapped a
  case pos =>
    have h12 : a.bytes.take 12 = ipv6.ipv4MappedOctets := by
      unfold ipv6.is_ipv4_mapped at hmap
      exact beq_iff_eq.mp hmap
    have hdlen : (a.bytes.drop 12).length = 4 := by
      rw [List.length_drop, hlen]
    obtain ⟨x0, x1, x2, x3, t, hd⟩ := exists_four_cons (a.bytes.drop 12)
      (by omega)
    have ht : t = [] := by
      have hlt := congrArg List.length hd
      rw [hdlen] at hlt
      simp only [List.length_cons] at hlt
      have : t.length = 0 := by omega
      exact List.eq_nil_of_length_eq_zero this
    subst ht
    have hbytes : a.bytes
        = [0, 0, 0, 0, 0, 0, 0, 0, 0, 0, 0xff, 0xff, x0, x1, x2, x3] := by
      have htd := List.take_append_drop 12 a.bytes
      rw [h12, hd] at htd
      rw [← htd]
      rfl
    have hx0 : x0 < 256 := hb x0 (by rw [hbytes]; simp)
    have hx1 : x1 < 256 := hb x1 (by rw [hbytes]; simp)
    have hx2 : x2 < 256 := hb x2 (by rw [hbytes]; simp)
    have hx3 : x3 < 256 := hb x3 (by rw [hbytes]; simp)
    have hts : ipv6.to_string a = [':', ':', 'f', 'f', 'f', 'f', ':']
        ++ toBase 10 x0 ++ '.' :: toBase 10 x1 ++ '.' :: toBase 10 x2
        ++ '.' :: toBase 10 x3 := by
      unfold ipv6.to_string
      rw [if_pos hmap, hbytes]
      simp [List.getD]
    unfold ipv6.from_string
    rw [hts, stdParseIpv6_mapped x0 x1 x2 x3 hx0 hx1 hx2 hx3, ← hbytes]
  case neg =>
    have hts : ipv6.to_string a = runFormat (ipv6.to_segments a.bytes) := by
      unfold ipv6.to_string
      rw [if_neg hmap]
      exact ipv6.scan_eq_runFormat _
    have hseg8 : (ipv6.to_segments a.bytes).length = 8 := by
      rw [ipv6.to_segments_length, hlen]
    have hseglt := ipv6.to_segments_lt a.bytes hb
    unfold ipv6.from_string
    rw [hts, stdParseIpv6_runFormat _ hseg8 hseglt,
      ipv6.seg_bytes_inv a.bytes hb (by simp [hlen])]

/-- Claim C7: round trip — for every valid byte pattern (any four IPv4
octets, any 48-bit MAC value, any sixteen IPv6 octets), parsing the
formatted text yields Ok of the original value:
ipv4::from_string(x.to_string()) == Ok(x),
mac::parse(&amp;mac::to_string(x)) == Ok(x), and
ipv6::from_string(ipv6::to_string(&amp;x)) == Ok(x). -/
theorem round_trip :
    (∀ x : IPv4, x.o0 < 256 → x.o1 < 256 → x.o2 < 256 → x.o3 < 256 →
      ipv4.from_string (ipv4.to_string x) = .ok x) ∧
    (∀ m : MacAddress, m.val < 2 ^ 48 →
      mac.parse (mac.to_string m) = .ok m) ∧
    (∀ a : IPv6, a.bytes.length = 16 → (∀ b ∈ a.bytes, b < 256) →
      ipv6.from_string (ipv6.to_string a) = .ok a) :=
  ⟨fun x h0 h1 h2 h3 => ipv4_round x h0 h1 h2 h3,
   fun m hm => mac_round m hm,
   fun a hl hb => ipv6_round a hl hb⟩

/-- Witness for C7 at concrete addresses: 192.168.1.1, the MAC
1a:2b:3c:4d:5e:6f, and the IPv4-mapped ::ffff:192.168.1.1. -/
theorem round_trip_witness :
    ipv4.from_string (ipv4.to_string ⟨192, 168, 1, 1⟩) = .ok ⟨192, 168, 1, 1⟩ ∧
    mac.parse (mac.to_string ⟨0x1a2b3c4d5e6f⟩) = .ok ⟨0x1a2b3c4d5e6f⟩ ∧
    ipv6.from_string (ipv6.to_string
        ⟨[0, 0, 0, 0, 0, 0, 0, 0, 0, 0, 0xff, 0xff, 192, 168, 1, 1]⟩)
      = .ok ⟨[0, 0, 0, 0, 0, 0, 0, 0, 0, 0, 0xff, 0xff, 192, 168, 1, 1]⟩ :=
  ⟨round_trip.1 ⟨192, 168, 1, 1⟩ (by decide) (by decide) (by decide) (by decide),
   round_trip.2.1 ⟨0x1a2b3c4d5e6f⟩ (by decide),
   round_trip.2.2 ⟨[0, 0, 0, 0, 0, 0, 0, 0, 0, 0, 0xff, 0xff, 192, 168, 1, 1]⟩
     (by decide) (by decide)⟩

/-- Claim C8: ipv6::to_string formats by the 4-state
Head/HeadBody/Tail/TailBody scan over the eight big-endian 16-bit
groups — the first zero run becomes one "::", other groups print as
lowercase hex without leading zeros, colon-separated — except an
IPv4-mapped address, printed "::ffff:" plus the last four octets in
decimal; in particular 2001:0db8:85a3:0000:0000:8a2e:0370:7334 formats
as "2001:db8:85a3::8a2e:370:7334", the all-zero address as "::" and the
loopback address as "::1". -/
theorem ipv6_to_string_canonical :
    (∀ a : IPv6, ipv6.to_string a =
        if ipv6.is_ipv4_mapped a then mappedFormat a.bytes
        else runFormat (ipv6.to_segments a.bytes)) ∧
    ipv6.to_string ⟨[0x20, 0x01, 0x0d, 0xb8, 0x85, 0xa3, 0, 0, 0, 0,
        0x8a, 0x2e, 0x03, 0x70, 0x73, 0x34]⟩
      = ['2', '0', '0', '1', ':', 'd', 'b', '8', ':', '8', '5', 'a', '3',
          ':', ':', '8', 'a', '2', 'e', ':', '3', '7', '0', ':', '7', '3',
          '3', '4'] ∧
    ipv6.to_string ⟨[0, 0, 0, 0, 0, 0, 0, 0, 0, 0, 0, 0, 0, 0, 0, 0]⟩
      = [':', ':'] ∧
    ipv6.to_string ⟨[0, 0, 0, 0, 0, 0, 0, 0, 0, 0, 0, 0, 0, 0, 0, 1]⟩
      = [':', ':', '1'] := by
  refine ⟨fun a => ?_, ?_, ?_, ?_⟩
  · unfold ipv6.to_string mappedFormat
    by_cases hmap : ipv6.is_ipv4_mapped a
    · rw [if_pos hmap, if_pos hmap]
    · rw [if_neg hmap, if_neg hmap]
      exact ipv6.scan_eq_runFormat _
  · unfold ipv6.to_string
    rw [if_neg (by decide)]
    simp [ipv6.to_segments, ipv6.scanStep, toBase, digitChar]
  · unfold ipv6.to_string
    rw [if_neg (by decide)]
    simp [ipv6.to_segments, ipv6.scanStep, toBase, digitChar]
  · unfold ipv6.to_string
    rw [if_neg (by decide)]
    simp [ipv6.to_segments, ipv6.scanStep, toBase, digitChar]

end Thunda
